import Mathlib

/-!
Verification development for `src/sbdd.c`, a block-device forwarding driver.

The driver keeps one process-wide record `struct sbdd` with an atomic
`deleting` flag, an atomic in-flight counter `refs_cnt`, a capacity, a
`gendisk` pointer `gd` and a backing-device handle `bd_handle`.  We embed:

* the shared record as the structure `Sbdd`;
* the straight-line lifecycle functions `sbdd_create`, `sbdd_delete`,
  `sbdd_init` as pure state transformers (failures of the external
  collaborators `bdev_open_by_path`, `blk_alloc_disk`, `add_disk` are
  supplied through an oracle);
* the concurrent hot path (`sbdd_submit_bio`, `sbdd_bio_endio`,
  `sbdd_delete`) as an interleaved small-step system: each thread is a
  program counter over the atomic instructions of the corresponding C
  function, and an executable scheduler `step`/`run` applies one atomic
  instruction at a time.

Externally visible actions (completing the original bio, submitting the
clone, `bio_put`, the counter decrement in the completion handler,
`wake_up`, `del_gendisk`/`put_disk`, `bdev_release`) are recorded in an
event trace.
-/

set_option maxHeartbeats 1000000

/-- `blk_status_t` value set by `bio_io_error` (BLK_STS_IOERR). The exact
numeral is irrelevant; it is some fixed non-zero status. -/
def BLK_STS_IOERR : Int := 10

/-- Result of `bdev_open_by_path` as stored in `__sbdd.bd_handle`:
a null pointer (the zero-initialized state), an `ERR_PTR` encoding an
errno, or a valid opened handle. -/
inductive BdHandle
  | null
  | errPtr (e : Int)
  | valid
  deriving DecidableEq

/-- The `gendisk` object: we track only the capacity reported to the host
(set by `set_capacity`). -/
structure Disk where
  capacity : Nat
  deriving DecidableEq

/-- `struct sbdd`: the process-wide device record.  `registered` models
whether the disk is currently in the host's request-routing table
(true between a successful `add_disk` and `del_gendisk`). -/
structure Sbdd where
  deleting : Bool
  refs_cnt : Int
  capacity : Nat
  gd : Option Disk
  bd_handle : BdHandle
  registered : Bool
  deriving DecidableEq

/-- `static struct sbdd __sbdd = { 0 };` — the zero-initialized record. -/
def sbdd0 : Sbdd :=
  { deleting := false, refs_cnt := 0, capacity := 0, gd := none
    bd_handle := .null, registered := false }

/-- Externally visible actions of the driver, recorded in traces. -/
inductive Event
  /-- `bio_endio` on the original bio of request `r` with the given
  `bi_status` (`bio_io_error` is `completeOrig r BLK_STS_IOERR`). -/
  | completeOrig (r : Nat) (status : Int)
  /-- `submit_bio(bio_clone)` for request `r`'s clone. -/
  | submitClone (r : Nat)
  /-- `bio_put(bio_clone)` for request `r`'s clone. -/
  | bioPut (r : Nat)
  /-- the `atomic_dec_and_test(&__sbdd.refs_cnt)` performed by request
  `r`'s completion handler. -/
  | decRef (r : Nat)
  /-- `wake_up(&__sbdd.exitwait)`. -/
  | wake
  /-- `del_gendisk(__sbdd.gd)`. -/
  | delGendisk
  /-- `put_disk(__sbdd.gd)`. -/
  | putDisk
  /-- `bdev_release` on the stored handle value. -/
  | bdevRelease (h : BdHandle)
  deriving DecidableEq

/-! ## Sequential lifecycle: `sbdd_create`, `sbdd_delete`, `sbdd_init` -/

/-- Result of an external call that returns a pointer: success or an
`ERR_PTR` encoding an errno. -/
inductive CallRes
  | ok
  | err (e : Int)
  deriving DecidableEq

/-- Results of the external collaborator calls made by `sbdd_create`:
`bdev_open_by_path` (error pointer or success), the backing disk's
`get_capacity`, `blk_alloc_disk` (error pointer or success), and the
return value of `add_disk`. -/
structure CreateOracle where
  openRes : CallRes
  backingCap : Nat
  allocRes : CallRes
  addRet : Int
  deriving DecidableEq

/-- `sbdd_create` up to (and excluding) the `add_disk` call.  On an early
failure returns `.error (ret, state)`; on reaching the `add_disk` call
returns `.ok state` with the state as it is just before registration. -/
def sbdd_create_preadd (s : Sbdd) (o : CreateOracle) : Except (Int × Sbdd) Sbdd :=
  match o.openRes with
  | .err e =>
      -- IS_ERR(__sbdd.bd_handle): return -1, the ERR_PTR stays stored
      .error (-1, { s with bd_handle := .errPtr e })
  | .ok =>
      let s1 := { s with bd_handle := .valid, capacity := o.backingCap }
      match o.allocRes with
      | .err e =>
          -- IS_ERR(gd): ret = PTR_ERR(gd); __sbdd.gd = NULL
          .error (e, { s1 with gd := none })
      | .ok =>
          -- set_capacity(gd, capacity); atomic_set(&refs_cnt, 1)
          .ok { s1 with gd := some ⟨s1.capacity⟩, refs_cnt := 1 }

/-- `sbdd_create`: full creation path, returning `(ret, state)`.  On a
successful `add_disk` the device becomes registered with the host. -/
def sbdd_create (s : Sbdd) (o : CreateOracle) : Int × Sbdd :=
  match sbdd_create_preadd s o with
  | .error r => r
  | .ok s3 =>
      if o.addRet = 0 then (0, { s3 with registered := true })
      else (o.addRet, s3)

/-- `sbdd_delete` run with no other thread active: sets `deleting`,
performs `atomic_dec_if_positive(&refs_cnt)`, then `wait_event` until
`refs_cnt` is zero — if the counter is non-zero at that point, the call
blocks forever (no other thread can change it here), modelled as `none`.
Otherwise the conditional release steps run and their events are
returned. -/
def sbdd_delete (s : Sbdd) : Option (Sbdd × List Event) :=
  let s1 := { s with deleting := true }
  let s2 := { s1 with
    refs_cnt := if 0 < s1.refs_cnt then s1.refs_cnt - 1 else s1.refs_cnt }
  if s2.refs_cnt = 0 then
    let (s3, ev1) :=
      match s2.gd with
      | some _ => ({ s2 with registered := false }, [Event.delGendisk, Event.putDisk])
      | none => (s2, [])
    let ev2 :=
      match s3.bd_handle with
      | .null => []
      | h => [Event.bdevRelease h]
    some (s3, ev1 ++ ev2)
  else none

/-- Result of `sbdd_init`: the returned status, the final state and
events (if `sbdd_delete` was run and did not block), and whether
`sbdd_delete` was invoked. -/
structure InitResult where
  ret : Int
  finalSt : Option (Sbdd × List Event)
  deleted : Bool
  deriving DecidableEq

/-- `sbdd_init`: runs `sbdd_create`; on a non-zero return invokes
`sbdd_delete` for teardown and returns the error. -/
def sbdd_init (s : Sbdd) (o : CreateOracle) : InitResult :=
  let (ret, s1) := sbdd_create s o
  if ret = 0 then { ret := 0, finalSt := some (s1, []), deleted := false }
  else { ret := ret, finalSt := sbdd_delete s1, deleted := true }

/-! ## Concurrent model of the hot path

Each C function on the hot path is cut at its atomic instructions:

`sbdd_submit_bio` (one thread per inbound bio):
  `atSplit`  — `bio = bio_split_to_limits(bio)`; `none` ⇒ return
  `atAlloc`  — `bio_alloc_clone`; failure ⇒ `bio_io_error(bio)`, return
  `atCheck`  — `atomic_read(&deleting)`; set ⇒ `bio_io_error(bio)`, return
  `atInc`    — `atomic_inc_not_zero(&refs_cnt)`; zero ⇒ `bio_io_error`, return
  `atSubmit` — bind `bi_private`/`bi_end_io`, `submit_bio(bio_clone)`

`sbdd_bio_endio` (spawned by the backing device once per submitted clone):
  `atComplete` — `bio_io_error(bi_private)` or `bio_endio(bi_private)`
  `atPut`      — `bio_put(bio_clone)`
  `atDec`      — `atomic_dec_and_test(&refs_cnt)`, `wake_up` if it hit zero

`sbdd_delete` (at most one invocation per module lifetime):
  `setFlag` — `atomic_set(&deleting, 1)`
  `decBase` — `atomic_dec_if_positive(&refs_cnt)`
  `waitDrain` — `wait_event(exitwait, !atomic_read(&refs_cnt))`; enabled
                only when the counter is zero (the ghost flag `drained`
                records that the wait returned)
  `remove`  — `if (gd) { del_gendisk; put_disk; }`
  `release` — `if (bd_handle) bdev_release(bd_handle);`
-/

/-- Program counter of a `sbdd_submit_bio` thread.  The three terminal
counters record through which exit the function returned. -/
inductive SubPc
  | atSplit
  | atAlloc
  | atCheck
  | atInc
  | atSubmit
  /-- returned because `bio_split_to_limits` yielded nothing -/
  | doneNoop
  /-- returned through one of the three `bio_io_error` branches -/
  | doneRejected
  /-- returned after `submit_bio(bio_clone)` -/
  | doneSubmitted
  deriving DecidableEq

/-- A `sbdd_submit_bio` thread: the request id, the outcome of
`bio_split_to_limits` (`splitSome`), the outcome of `bio_alloc_clone`
(`cloneOk`), and the program counter. -/
structure SubThread where
  id : Nat
  splitSome : Bool
  cloneOk : Bool
  pc : SubPc
  deriving DecidableEq

/-- Program counter of a `sbdd_bio_endio` thread. -/
inductive EndPc
  | atComplete
  | atPut
  | atDec
  | doneEnd
  deriving DecidableEq

/-- A `sbdd_bio_endio` thread for request `id`'s clone, carrying the
clone's `bi_status` chosen by the backing device. -/
structure EndThread where
  id : Nat
  status : Int
  pc : EndPc
  deriving DecidableEq

/-- Program counter of the `sbdd_delete` thread. -/
inductive DelPc
  | setFlag
  | decBase
  | waitDrain
  | remove
  | release
  | doneDel
  deriving DecidableEq

/-- A configuration of the interleaved system: the shared record, the
submit threads, the optional delete thread, the clones submitted to the
backing device whose completion has not started yet (`pendingClones`),
the running completion handlers, the event trace, and a ghost flag
recording that the delete thread's `wait_event` returned. -/
structure Config where
  dev : Sbdd
  subs : List SubThread
  del : Option DelPc
  pendingClones : List Nat
  ends : List EndThread
  events : List Event
  drained : Bool
  deriving DecidableEq

/-- A scheduling action: advance one thread by one atomic instruction,
or let the backing device start the completion handler of a submitted
clone with a chosen status. -/
inductive Act
  | subStep (i : Nat)
  | delStep
  | spawnEndio (i : Nat) (status : Int)
  | endStep (i : Nat)
  deriving DecidableEq

/-- One atomic instruction of the chosen thread.  `none` when the action
is disabled (no such thread, thread finished, or the delete thread is
blocked in `wait_event`). -/
def step (c : Config) (a : Act) : Option Config :=
  match a with
  | .subStep i =>
      match c.subs[i]? with
      | none => none
      | some t =>
          match t.pc with
          | .atSplit =>
              if t.splitSome then
                some { c with subs := c.subs.set i { t with pc := .atAlloc } }
              else
                some { c with subs := c.subs.set i { t with pc := .doneNoop } }
          | .atAlloc =>
              if t.cloneOk then
                some { c with subs := c.subs.set i { t with pc := .atCheck } }
              else
                some { c with
                  subs := c.subs.set i { t with pc := .doneRejected },
                  events := c.events ++ [.completeOrig t.id BLK_STS_IOERR] }
          | .atCheck =>
              if c.dev.deleting then
                some { c with
                  subs := c.subs.set i { t with pc := .doneRejected },
                  events := c.events ++ [.completeOrig t.id BLK_STS_IOERR] }
              else
                some { c with subs := c.subs.set i { t with pc := .atInc } }
          | .atInc =>
              if c.dev.refs_cnt = 0 then
                some { c with
                  subs := c.subs.set i { t with pc := .doneRejected },
                  events := c.events ++ [.completeOrig t.id BLK_STS_IOERR] }
              else
                some { c with
                  subs := c.subs.set i { t with pc := .atSubmit },
                  dev := { c.dev with refs_cnt := c.dev.refs_cnt + 1 } }
          | .atSubmit =>
              some { c with
                subs := c.subs.set i { t with pc := .doneSubmitted },
                pendingClones := c.pendingClones ++ [t.id],
                events := c.events ++ [.submitClone t.id] }
          | _ => none
  | .delStep =>
      match c.del with
      | none => none
      | some pc =>
          match pc with
          | .setFlag =>
              some { c with
                del := some .decBase,
                dev := { c.dev with deleting := true } }
          | .decBase =>
              some { c with
                del := some .waitDrain,
                dev := { c.dev with refs_cnt :=
                  if 0 < c.dev.refs_cnt then c.dev.refs_cnt - 1
                  else c.dev.refs_cnt } }
          | .waitDrain =>
              if c.dev.refs_cnt = 0 then
                some { c with del := some .remove, drained := true }
              else none
          | .remove =>
              match c.dev.gd with
              | some _ =>
                  some { c with
                    del := some .release,
                    dev := { c.dev with registered := false },
                    events := c.events ++ [.delGendisk, .putDisk] }
              | none => some { c with del := some .release }
          | .release =>
              match c.dev.bd_handle with
              | .null => some { c with del := some .doneDel }
              | h => some { c with
                 del := some .doneDel,
                 events := c.events ++ [.bdevRelease h] }
          | .doneDel => none
  | .spawnEndio i st =>
      match c.pendingClones[i]? with
      | none => none
      | some r =>
          some { c with
                 pendingClones := c.pendingClones.eraseIdx i,
                 ends := c.ends ++ [{ id := r, status := st, pc := .atComplete }] }
  | .endStep i =>
      match c.ends[i]? with
      | none => none
      | some e =>
          match e.pc with
          | .atComplete =>
              some { c with
                  ends := c.ends.set i { e with pc := .atPut },
                  events := c.events ++
                    [.completeOrig e.id (if e.status = 0 then 0 else BLK_STS_IOERR)] }
          | .atPut =>
              some { c with
                  ends := c.ends.set i { e with pc := .atDec },
                  events := c.events ++ [.bioPut e.id] }
          | .atDec =>
              some { c with
                  ends := c.ends.set i { e with pc := .doneEnd },
                  dev := { c.dev with refs_cnt := c.dev.refs_cnt - 1 },
                  events := c.events ++
                    (if c.dev.refs_cnt - 1 = 0 then [.decRef e.id, .wake]
                     else [.decRef e.id]) }
          | .doneEnd => none

/-- Run a list of scheduling actions from a configuration. -/
def run (c : Config) (as : List Act) : Option Config :=
  match as with
  | [] => some c
  | a :: rest =>
      match step c a with
      | none => none
      | some c1 => run c1 rest

/-- Initial configurations the hot-path model starts from: the device
record as left by a successful creation (counter at its baseline `1`,
`deleting` clear), every submit thread at its entry point with distinct
request ids, the delete thread not yet started, no clone submitted, no
completion running, an empty trace. -/
def InitOk (c : Config) : Prop :=
  c.dev.deleting = false ∧
  c.dev.refs_cnt = 1 ∧
  (∀ t ∈ c.subs, t.pc = SubPc.atSplit) ∧
  (c.subs.map (fun t => t.id)).Nodup ∧
  (c.del = none ∨ c.del = some .setFlag) ∧
  c.pendingClones = [] ∧
  c.ends = [] ∧
  c.events = [] ∧
  c.drained = false

/-! ## Trace bookkeeping and the global invariant -/

/-- Whether an event belongs to request `r`. -/
def eventFor (r : Nat) : Event → Bool
  | .completeOrig r2 _ => r2 == r
  | .submitClone r2 => r2 == r
  | .bioPut r2 => r2 == r
  | .decRef r2 => r2 == r
  | _ => false

/-- The sub-trace of events belonging to request `r`. -/
def idEvents (r : Nat) (evs : List Event) : List Event :=
  evs.filter (eventFor r)

/-- The completion event the handler emits for a clone with status `st`:
`bio_io_error` (status `BLK_STS_IOERR`) on failure, `bio_endio` with
status `0` on success. -/
def compEv (r : Nat) (st : Int) : Event :=
  .completeOrig r (if st = 0 then 0 else BLK_STS_IOERR)

/-- The completion-handler threads working on request `r`'s clone. -/
def endsFor (r : Nat) (es : List EndThread) : List EndThread :=
  es.filter (fun e => e.id == r)

/-- Relation between a completion-handler thread's program counter and
request `r`'s sub-trace. -/
def endShape (r : Nat) (E : List Event) (e : EndThread) : Prop :=
  match e.pc with
  | .atComplete => E = [.submitClone r]
  | .atPut => E = [.submitClone r, compEv r e.status]
  | .atDec => E = [.submitClone r, compEv r e.status, .bioPut r]
  | .doneEnd => E = [.submitClone r, compEv r e.status, .bioPut r, .decRef r]

/-- Relation between a submit thread's program counter and its request's
sub-trace `E`, its number `pcnt` of submitted-but-unspawned clones and
its completion-handler threads `es`. -/
def subShape (t : SubThread) (E : List Event) (pcnt : Nat) (es : List EndThread) : Prop :=
  match t.pc with
  | .atSplit => E = [] ∧ pcnt = 0 ∧ es = []
  | .atAlloc => t.splitSome = true ∧ E = [] ∧ pcnt = 0 ∧ es = []
  | .atCheck => t.splitSome = true ∧ t.cloneOk = true ∧ E = [] ∧ pcnt = 0 ∧ es = []
  | .atInc => t.splitSome = true ∧ t.cloneOk = true ∧ E = [] ∧ pcnt = 0 ∧ es = []
  | .atSubmit => t.splitSome = true ∧ t.cloneOk = true ∧ E = [] ∧ pcnt = 0 ∧ es = []
  | .doneNoop => t.splitSome = false ∧ E = [] ∧ pcnt = 0 ∧ es = []
  | .doneRejected =>
      t.splitSome = true ∧ E = [.completeOrig t.id BLK_STS_IOERR] ∧ pcnt = 0 ∧ es = []
  | .doneSubmitted =>
      t.splitSome = true ∧ t.cloneOk = true ∧
      ((pcnt = 1 ∧ es = [] ∧ E = [.submitClone t.id]) ∨
       (pcnt = 0 ∧ ∃ e, es = [e] ∧ e.id = t.id ∧ endShape t.id E e))

/-- The baseline reference held for the device itself: present until the
delete thread has executed its `atomic_dec_if_positive`. -/
def baselineRefs (d : Option DelPc) : Int :=
  match d with
  | none => 1
  | some .setFlag => 1
  | some .decBase => 1
  | some _ => 0

/-- Number of submit threads that have incremented the counter but not
yet submitted their clone. -/
def nAtSubmit (subs : List SubThread) : Nat :=
  subs.countP (fun t => t.pc == SubPc.atSubmit)

/-- Number of completion-handler threads that have not yet performed
their decrement. -/
def nActiveEnds (es : List EndThread) : Nat :=
  es.countP (fun e => e.pc != EndPc.doneEnd)

/-- Whether the delete thread has executed `atomic_set(&deleting, 1)`. -/
def delStarted (d : Option DelPc) : Bool :=
  match d with
  | none => false
  | some .setFlag => false
  | some _ => true

/-- No disk-removal event in the trace. -/
def noRemoveEvs (evs : List Event) : Prop :=
  Event.delGendisk ∉ evs ∧ Event.putDisk ∉ evs

/-- No backing-handle release event in the trace. -/
def noReleaseEvs (evs : List Event) : Prop :=
  ∀ h, Event.bdevRelease h ∉ evs

/-- Relation between the delete thread's program counter, the trace, the
ghost drain flag and the registration state. -/
def delShape (c : Config) : Prop :=
  match c.del with
  | none => noRemoveEvs c.events ∧ noReleaseEvs c.events ∧ c.drained = false
  | some .setFlag => noRemoveEvs c.events ∧ noReleaseEvs c.events ∧ c.drained = false
  | some .decBase => noRemoveEvs c.events ∧ noReleaseEvs c.events ∧ c.drained = false
  | some .waitDrain => noRemoveEvs c.events ∧ noReleaseEvs c.events ∧ c.drained = false
  | some .remove => c.drained = true ∧ noRemoveEvs c.events ∧ noReleaseEvs c.events
  | some .release =>
      c.drained = true ∧ noReleaseEvs c.events ∧
      (c.dev.gd ≠ none → Event.delGendisk ∈ c.events ∧ Event.putDisk ∈ c.events ∧
        c.dev.registered = false)
  | some .doneDel =>
      c.drained = true ∧
      (c.dev.gd ≠ none → Event.delGendisk ∈ c.events ∧ Event.putDisk ∈ c.events ∧
        c.dev.registered = false)

/-- Every `bdev_release` event is preceded (strictly earlier in the
trace) by a `del_gendisk` event. -/
def relAfterRemove (evs : List Event) : Prop :=
  ∀ (j : Nat) (h : BdHandle), evs[j]? = some (Event.bdevRelease h) →
    ∃ i : Nat, i < j ∧ evs[i]? = some Event.delGendisk

/-- The global invariant of the concurrent model. -/
structure SbddInv (c : Config) : Prop where
  refsEq : c.dev.refs_cnt =
    baselineRefs c.del + (nAtSubmit c.subs : Int) + (c.pendingClones.length : Int) +
      (nActiveEnds c.ends : Int)
  delFlag : c.dev.deleting = delStarted c.del
  nodup : (c.subs.map (fun t => t.id)).Nodup
  perId : ∀ t ∈ c.subs,
    subShape t (idEvents t.id c.events) (c.pendingClones.count t.id) (endsFor t.id c.ends)
  orphans : ∀ r, (∀ t ∈ c.subs, t.id ≠ r) →
    idEvents r c.events = [] ∧ c.pendingClones.count r = 0 ∧ endsFor r c.ends = []
  drainP : c.drained = true →
    baselineRefs c.del = 0 ∧ nAtSubmit c.subs = 0 ∧ c.pendingClones = [] ∧
      nActiveEnds c.ends = 0
  delEvs : delShape c
  ordEvs : c.dev.gd = none ∨ relAfterRemove c.events

/-! ## List helpers -/

theorem mem_of_getElemQ {α : Type} {l : List α} {i : Nat} {a : α}
    (h : l[i]? = some a) : a ∈ l := by
  have h2 := List.getElem?_eq_some.mp h
  exact h2.2 ▸ List.getElem_mem h2.1

theorem getElemQ_append_left {α : Type} {l : List α} (m : List α) {j : Nat}
    (h : j < l.length) : (l ++ m)[j]? = l[j]? := by
  rw [List.getElem?_append]; simp [h]

theorem getElemQ_append_right {α : Type} {l : List α} (m : List α) {j : Nat}
    (h : l.length ≤ j) : (l ++ m)[j]? = m[j - l.length]? := by
  rw [List.getElem?_append]; simp [Nat.not_lt.mpr h]

/-- Decomposition of a list at a position holding a known element. -/
theorem list_decomp {α : Type} {l : List α} {i : Nat} {x : α} (h : l[i]? = some x) :
    l = l.take i ++ x :: l.drop (i + 1) := by
  have hlen := (List.getElem?_eq_some.mp h).1
  have hx := (List.getElem?_eq_some.mp h).2
  conv_lhs => rw [← List.take_append_drop i l, List.drop_eq_getElem_cons hlen, hx]

theorem set_decomp {α : Type} {l : List α} {i : Nat} {x : α} (h : l[i]? = some x)
    (y : α) : l.set i y = l.take i ++ y :: l.drop (i + 1) :=
  List.set_eq_take_cons_drop y (List.getElem?_eq_some.mp h).1

theorem eraseIdx_decomp {α : Type} (l : List α) (i : Nat) :
    l.eraseIdx i = l.take i ++ l.drop (i + 1) :=
  List.eraseIdx_eq_take_drop_succ l i

/-- In a list of submit threads with pairwise distinct ids, the threads
around position `i` have ids different from the one at `i`. -/
theorem nodup_ids_ne {L R : List SubThread} {t : SubThread}
    (h : (((L ++ t :: R).map (fun u => u.id))).Nodup) :
    (∀ u ∈ L, u.id ≠ t.id) ∧ (∀ u ∈ R, u.id ≠ t.id) := by
  rw [List.map_append, List.map_cons, List.nodup_middle] at h
  rcases List.nodup_cons.mp h with ⟨hnot, -⟩
  constructor <;> intro u hu hEq
  · exact hnot (List.mem_append_left _ (hEq ▸ List.mem_map_of_mem _ hu))
  · exact hnot (List.mem_append_right _ (hEq ▸ List.mem_map_of_mem _ hu))

theorem idEvents_append (r : Nat) (a b : List Event) :
    idEvents r (a ++ b) = idEvents r a ++ idEvents r b :=
  List.filter_append a b

theorem idEvents_snoc_true {r : Nat} {e : Event} (evs : List Event)
    (h : eventFor r e = true) :
    idEvents r (evs ++ [e]) = idEvents r evs ++ [e] := by
  rw [idEvents_append]; simp [idEvents, List.filter, h]

theorem idEvents_snoc_false {r : Nat} {e : Event} (evs : List Event)
    (h : eventFor r e = false) :
    idEvents r (evs ++ [e]) = idEvents r evs := by
  rw [idEvents_append]; simp [idEvents, List.filter, h]

theorem relAfterRemove_append {evs es : List Event} (h : relAfterRemove evs)
    (hes : ∀ h2, Event.bdevRelease h2 ∉ es) : relAfterRemove (evs ++ es) := by
  intro j h2 hj
  by_cases hlt : j < evs.length
  · rw [getElemQ_append_left es hlt] at hj
    obtain ⟨i, hi, hgi⟩ := h j h2 hj
    have hilen : i < evs.length := (List.getElem?_eq_some.mp hgi).1
    exact ⟨i, hi, by rw [getElemQ_append_left es hilen]; exact hgi⟩
  · rw [getElemQ_append_right es (Nat.le_of_not_lt hlt)] at hj
    exact absurd (mem_of_getElemQ hj) (hes h2)

theorem relAfterRemove_snoc_rel {evs : List Event} (h : relAfterRemove evs)
    (hmem : Event.delGendisk ∈ evs) (h2 : BdHandle) :
    relAfterRemove (evs ++ [Event.bdevRelease h2]) := by
  intro j h3 hj
  by_cases hlt : j < evs.length
  · rw [getElemQ_append_left _ hlt] at hj
    obtain ⟨i, hi, hgi⟩ := h j h3 hj
    have hilen : i < evs.length := (List.getElem?_eq_some.mp hgi).1
    exact ⟨i, hi, by rw [getElemQ_append_left _ hilen]; exact hgi⟩
  · obtain ⟨i, hgi⟩ := List.mem_iff_getElem?.mp hmem
    have hilen : i < evs.length := (List.getElem?_eq_some.mp hgi).1
    exact ⟨i, lt_of_lt_of_le hilen (Nat.le_of_not_lt hlt),
      by rw [getElemQ_append_left _ hilen]; exact hgi⟩

theorem noRemoveEvs_append {evs es : List Event} (h : noRemoveEvs evs)
    (h1 : Event.delGendisk ∉ es) (h2 : Event.putDisk ∉ es) :
    noRemoveEvs (evs ++ es) := by
  unfold noRemoveEvs at *
  simp only [List.mem_append, not_or]
  exact ⟨⟨h.1, h1⟩, ⟨h.2, h2⟩⟩

theorem noReleaseEvs_append {evs es : List Event} (h : noReleaseEvs evs)
    (h3 : ∀ hh, Event.bdevRelease hh ∉ es) : noReleaseEvs (evs ++ es) := by
  intro hh
  simp only [List.mem_append, not_or]
  exact ⟨h hh, h3 hh⟩

/-- `delShape` only looks at the delete pc, the ghost flag, the trace
and the disk/registration state: it survives any step that keeps those,
appending only events that are neither removals nor releases. -/
theorem delShape_of_parts {c c' : Config} (hd : delShape c)
    (hdel : c'.del = c.del) (hdr : c'.drained = c.drained)
    (hgd : c'.dev.gd = c.dev.gd) (hreg : c'.dev.registered = c.dev.registered)
    {es : List Event} (hevs : c'.events = c.events ++ es)
    (h1 : Event.delGendisk ∉ es) (h2 : Event.putDisk ∉ es)
    (h3 : ∀ hh, Event.bdevRelease hh ∉ es) :
    delShape c' := by
  unfold delShape at hd ⊢
  rw [hdel, hdr, hgd, hreg, hevs]
  match hc : c.del with
  | none =>
      rw [hc] at hd
      exact ⟨noRemoveEvs_append hd.1 h1 h2, noReleaseEvs_append hd.2.1 h3, hd.2.2⟩
  | some .setFlag =>
      rw [hc] at hd
      exact ⟨noRemoveEvs_append hd.1 h1 h2, noReleaseEvs_append hd.2.1 h3, hd.2.2⟩
  | some .decBase =>
      rw [hc] at hd
      exact ⟨noRemoveEvs_append hd.1 h1 h2, noReleaseEvs_append hd.2.1 h3, hd.2.2⟩
  | some .waitDrain =>
      rw [hc] at hd
      exact ⟨noRemoveEvs_append hd.1 h1 h2, noReleaseEvs_append hd.2.1 h3, hd.2.2⟩
  | some .remove =>
      rw [hc] at hd
      exact ⟨hd.1, noRemoveEvs_append hd.2.1 h1 h2, noReleaseEvs_append hd.2.2 h3⟩
  | some .release =>
      rw [hc] at hd
      refine ⟨hd.1, noReleaseEvs_append hd.2.1 h3, fun hne => ?_⟩
      obtain ⟨ha, hb, hc2⟩ := hd.2.2 hne
      exact ⟨List.mem_append_left _ ha, List.mem_append_left _ hb, hc2⟩
  | some .doneDel =>
      rw [hc] at hd
      refine ⟨hd.1, fun hne => ?_⟩
      obtain ⟨ha, hb, hc2⟩ := hd.2 hne
      exact ⟨List.mem_append_left _ ha, List.mem_append_left _ hb, hc2⟩

/-- The release-after-removal ordering survives any step that keeps the
disk pointer and appends only non-release events. -/
theorem ordEvs_of_parts {c c' : Config}
    (ho : c.dev.gd = none ∨ relAfterRemove c.events)
    (hgd : c'.dev.gd = c.dev.gd)
    {es : List Event} (hevs : c'.events = c.events ++ es)
    (h3 : ∀ hh, Event.bdevRelease hh ∉ es) :
    c'.dev.gd = none ∨ relAfterRemove c'.events := by
  rcases ho with ho | ho
  · exact Or.inl (hgd ▸ ho)
  · exact Or.inr (hevs ▸ relAfterRemove_append ho h3)

theorem count_append_single_ne {l : List Nat} {x r : Nat} (h : x ≠ r) :
    (l ++ [x]).count r = l.count r := by
  simp [List.count_append, List.count_cons, h]

theorem count_append_single_eq (l : List Nat) (r : Nat) :
    (l ++ [r]).count r = l.count r + 1 := by
  simp [List.count_append, List.count_cons]

@[simp] theorem eventFor_completeOrig (r r2 : Nat) (st : Int) :
    eventFor r (Event.completeOrig r2 st) = (r2 == r) := rfl
@[simp] theorem eventFor_submitClone (r r2 : Nat) :
    eventFor r (Event.submitClone r2) = (r2 == r) := rfl
@[simp] theorem eventFor_bioPut (r r2 : Nat) :
    eventFor r (Event.bioPut r2) = (r2 == r) := rfl
@[simp] theorem eventFor_decRef (r r2 : Nat) :
    eventFor r (Event.decRef r2) = (r2 == r) := rfl
@[simp] theorem eventFor_wake (r : Nat) : eventFor r Event.wake = false := rfl
@[simp] theorem eventFor_delGendisk (r : Nat) : eventFor r Event.delGendisk = false := rfl
@[simp] theorem eventFor_putDisk (r : Nat) : eventFor r Event.putDisk = false := rfl
@[simp] theorem eventFor_bdevRelease (r : Nat) (h : BdHandle) :
    eventFor r (Event.bdevRelease h) = false := rfl

theorem nAtSubmit_set_same {subs : List SubThread} {i : Nat} {t : SubThread}
    (t2 : SubThread) (hget : subs[i]? = some t)
    (h1 : (t.pc == SubPc.atSubmit) = (t2.pc == SubPc.atSubmit)) :
    nAtSubmit (subs.set i t2) = nAtSubmit subs := by
  rw [set_decomp hget]
  conv_rhs => rw [list_decomp hget]
  simp [nAtSubmit, List.countP_append, List.countP_cons, h1]

theorem nAtSubmit_set_add {subs : List SubThread} {i : Nat} {t : SubThread}
    (t2 : SubThread) (hget : subs[i]? = some t)
    (h1 : (t.pc == SubPc.atSubmit) = false) (h2 : t2.pc = SubPc.atSubmit) :
    nAtSubmit (subs.set i t2) = nAtSubmit subs + 1 := by
  rw [set_decomp hget]
  conv_rhs => rw [list_decomp hget]
  simp [nAtSubmit, List.countP_append, List.countP_cons, h1, h2]
  omega

theorem nAtSubmit_set_sub {subs : List SubThread} {i : Nat} {t : SubThread}
    (t2 : SubThread) (hget : subs[i]? = some t)
    (h1 : t.pc = SubPc.atSubmit) (h2 : (t2.pc == SubPc.atSubmit) = false) :
    nAtSubmit subs = nAtSubmit (subs.set i t2) + 1 := by
  rw [set_decomp hget]
  conv_lhs => rw [list_decomp hget]
  simp [nAtSubmit, List.countP_append, List.countP_cons, h1, h2]
  omega

theorem nAtSubmit_pos {subs : List SubThread} {i : Nat} {t : SubThread}
    (hget : subs[i]? = some t) (h : t.pc = SubPc.atSubmit) :
    nAtSubmit subs ≠ 0 := by
  rw [list_decomp hget]
  simp [nAtSubmit, List.countP_append, List.countP_cons, h]

theorem ids_set {subs : List SubThread} {i : Nat} {t : SubThread}
    (t2 : SubThread) (hget : subs[i]? = some t) (hid : t2.id = t.id) :
    (subs.set i t2).map (fun u => u.id) = subs.map (fun u => u.id) := by
  rw [set_decomp hget]
  conv_rhs => rw [list_decomp hget]
  simp [hid]

/-- A member of `subs.set i t2` is either the new element or an old
member whose id differs from the replaced element's. -/
theorem mem_set_cases {subs : List SubThread} {i : Nat} {t t2 u : SubThread}
    (hget : subs[i]? = some t)
    (hnd : (subs.map (fun v => v.id)).Nodup)
    (hmem : u ∈ subs.set i t2) :
    u = t2 ∨ (u ∈ subs ∧ u.id ≠ t.id) := by
  have hne := nodup_ids_ne (show (((subs.take i ++ t :: subs.drop (i + 1)).map
    (fun v => v.id))).Nodup from by rw [← list_decomp hget]; exact hnd)
  rw [set_decomp hget] at hmem
  rcases List.mem_append.mp hmem with hL | hCR
  · exact Or.inr ⟨by rw [list_decomp hget]; exact List.mem_append_left _ hL, hne.1 u hL⟩
  · rcases List.mem_cons.mp hCR with rfl | hR
    · exact Or.inl rfl
    · refine Or.inr ⟨?_, hne.2 u hR⟩
      rw [list_decomp hget]
      exact List.mem_append_right _ (List.mem_cons_of_mem _ hR)

theorem orphans_ids_transfer {subs : List SubThread} {i : Nat} {t : SubThread}
    (t2 : SubThread) (hget : subs[i]? = some t) (hid : t2.id = t.id) {r : Nat}
    (hr : ∀ u ∈ subs.set i t2, u.id ≠ r) : ∀ u ∈ subs, u.id ≠ r := by
  intro u hmem
  rw [list_decomp hget] at hmem
  rw [set_decomp hget] at hr
  rcases List.mem_append.mp hmem with hL | hCR
  · exact hr u (List.mem_append_left _ hL)
  · rcases List.mem_cons.mp hCR with rfl | hR
    · exact hid ▸ hr t2 (List.mem_append_right _ (List.mem_cons_self _ _))
    · exact hr u (List.mem_append_right _ (List.mem_cons_of_mem _ hR))

/-- Each atomic instruction of `sbdd_submit_bio` preserves the invariant. -/
theorem inv_subStep {c c' : Config} {i : Nat} (hI : SbddInv c)
    (h : step c (.subStep i) = some c') : SbddInv c' := by
  rcases hget : c.subs[i]? with - | t
  · rw [step, hget] at h; exact absurd h (by simp)
  obtain ⟨tid, tsp, tok, tpc⟩ := t
  rw [step, hget] at h
  cases tpc
  case atSplit =>
    have hs := hI.perId _ (mem_of_getElemQ hget)
    simp only [subShape] at hs
    obtain ⟨hE, hP, hF⟩ := hs
    cases tsp
    all_goals
      simp only [Bool.false_eq_true, if_false, if_true, Option.some.injEq] at h
    case false =>
      subst h
      refine ⟨?_, hI.delFlag, ?_, ?_, ?_, ?_, hI.delEvs, hI.ordEvs⟩
      · dsimp only
        rw [nAtSubmit_set_same ⟨tid, false, tok, .doneNoop⟩ hget (by simp)]
        exact hI.refsEq
      · dsimp only
        rw [ids_set ⟨tid, false, tok, .doneNoop⟩ hget rfl]
        exact hI.nodup
      · intro u hmem
        dsimp only at hmem ⊢
        rcases mem_set_cases hget hI.nodup hmem with rfl | ⟨hold, -⟩
        · exact ⟨rfl, hE, hP, hF⟩
        · exact hI.perId u hold
      · intro r hr
        dsimp only at hr
        exact hI.orphans r (orphans_ids_transfer ⟨tid, false, tok, .doneNoop⟩ hget rfl hr)
      · intro hd
        obtain ⟨h1, h2, h3, h4⟩ := hI.drainP hd
        refine ⟨h1, ?_, h3, h4⟩
        dsimp only
        rw [nAtSubmit_set_same ⟨tid, false, tok, .doneNoop⟩ hget (by simp)]
        exact h2
    case true =>
      subst h
      refine ⟨?_, hI.delFlag, ?_, ?_, ?_, ?_, hI.delEvs, hI.ordEvs⟩
      · dsimp only
        rw [nAtSubmit_set_same ⟨tid, true, tok, .atAlloc⟩ hget (by simp)]
        exact hI.refsEq
      · dsimp only
        rw [ids_set ⟨tid, true, tok, .atAlloc⟩ hget rfl]
        exact hI.nodup
      · intro u hmem
        dsimp only at hmem ⊢
        rcases mem_set_cases hget hI.nodup hmem with rfl | ⟨hold, -⟩
        · exact ⟨rfl, hE, hP, hF⟩
        · exact hI.perId u hold
      · intro r hr
        dsimp only at hr
        exact hI.orphans r (orphans_ids_transfer ⟨tid, true, tok, .atAlloc⟩ hget rfl hr)
      · intro hd
        obtain ⟨h1, h2, h3, h4⟩ := hI.drainP hd
        refine ⟨h1, ?_, h3, h4⟩
        dsimp only
        rw [nAtSubmit_set_same ⟨tid, true, tok, .atAlloc⟩ hget (by simp)]
        exact h2
  case atAlloc =>
    have hs := hI.perId _ (mem_of_getElemQ hget)
    simp only [subShape] at hs
    obtain ⟨hsp, hE, hP, hF⟩ := hs
    cases tok
    all_goals
      simp only [Bool.false_eq_true, if_false, if_true, Option.some.injEq] at h
    case false =>
      subst h
      refine ⟨?_, hI.delFlag, ?_, ?_, ?_, ?_, ?_, ?_⟩
      · dsimp only
        rw [nAtSubmit_set_same ⟨tid, tsp, false, .doneRejected⟩ hget (by simp)]
        exact hI.refsEq
      · dsimp only
        rw [ids_set ⟨tid, tsp, false, .doneRejected⟩ hget rfl]
        exact hI.nodup
      · intro u hmem
        dsimp only at hmem ⊢
        rcases mem_set_cases hget hI.nodup hmem with rfl | ⟨hold, hne⟩
        · refine ⟨hsp, ?_, hP, hF⟩
          rw [idEvents_snoc_true _ (by simp), hE]
          rfl
        · have hne2 : u.id ≠ tid := hne
          have hEv : idEvents u.id (c.events ++ [Event.completeOrig tid BLK_STS_IOERR]) =
              idEvents u.id c.events :=
            idEvents_snoc_false _ (by simpa using Ne.symm hne2)
          rw [hEv]
          exact hI.perId u hold
      · intro r hr
        dsimp only at hr ⊢
        have hrOld := orphans_ids_transfer ⟨tid, tsp, false, .doneRejected⟩ hget rfl hr
        obtain ⟨h1, h2, h3⟩ := hI.orphans r hrOld
        have htidr : tid ≠ r := hrOld _ (mem_of_getElemQ hget)
        refine ⟨?_, h2, h3⟩
        rw [idEvents_snoc_false _ (by simpa using htidr), h1]
      · intro hd
        obtain ⟨h1, h2, h3, h4⟩ := hI.drainP hd
        refine ⟨h1, ?_, h3, h4⟩
        dsimp only
        rw [nAtSubmit_set_same ⟨tid, tsp, false, .doneRejected⟩ hget (by simp)]
        exact h2
      · exact delShape_of_parts hI.delEvs rfl rfl rfl rfl rfl
          (by simp) (by simp) (by simp)
      · exact ordEvs_of_parts hI.ordEvs rfl rfl (by simp)
    case true =>
      subst h
      refine ⟨?_, hI.delFlag, ?_, ?_, ?_, ?_, hI.delEvs, hI.ordEvs⟩
      · dsimp only
        rw [nAtSubmit_set_same ⟨tid, tsp, true, .atCheck⟩ hget (by simp)]
        exact hI.refsEq
      · dsimp only
        rw [ids_set ⟨tid, tsp, true, .atCheck⟩ hget rfl]
        exact hI.nodup
      · intro u hmem
        dsimp only at hmem ⊢
        rcases mem_set_cases hget hI.nodup hmem with rfl | ⟨hold, -⟩
        · exact ⟨hsp, rfl, hE, hP, hF⟩
        · exact hI.perId u hold
      · intro r hr
        dsimp only at hr
        exact hI.orphans r (orphans_ids_transfer ⟨tid, tsp, true, .atCheck⟩ hget rfl hr)
      · intro hd
        obtain ⟨h1, h2, h3, h4⟩ := hI.drainP hd
        refine ⟨h1, ?_, h3, h4⟩
        dsimp only
        rw [nAtSubmit_set_same ⟨tid, tsp, true, .atCheck⟩ hget (by simp)]
        exact h2
  case atCheck =>
    have hs := hI.perId _ (mem_of_getElemQ hget)
    simp only [subShape] at hs
    obtain ⟨hsp, hok, hE, hP, hF⟩ := hs
    cases hdel : c.dev.deleting
    all_goals
      simp only [hdel, Bool.false_eq_true, if_false, if_true, Option.some.injEq] at h
    case false =>
      subst h
      refine ⟨?_, hI.delFlag, ?_, ?_, ?_, ?_, hI.delEvs, hI.ordEvs⟩
      · dsimp only
        rw [nAtSubmit_set_same ⟨tid, tsp, tok, .atInc⟩ hget (by simp)]
        exact hI.refsEq
      · dsimp only
        rw [ids_set ⟨tid, tsp, tok, .atInc⟩ hget rfl]
        exact hI.nodup
      · intro u hmem
        dsimp only at hmem ⊢
        rcases mem_set_cases hget hI.nodup hmem with rfl | ⟨hold, -⟩
        · exact ⟨hsp, hok, hE, hP, hF⟩
        · exact hI.perId u hold
      · intro r hr
        dsimp only at hr
        exact hI.orphans r (orphans_ids_transfer ⟨tid, tsp, tok, .atInc⟩ hget rfl hr)
      · intro hd
        obtain ⟨h1, h2, h3, h4⟩ := hI.drainP hd
        refine ⟨h1, ?_, h3, h4⟩
        dsimp only
        rw [nAtSubmit_set_same ⟨tid, tsp, tok, .atInc⟩ hget (by simp)]
        exact h2
    case true =>
      subst h
      refine ⟨?_, hI.delFlag, ?_, ?_, ?_, ?_, ?_, ?_⟩
      · dsimp only
        rw [nAtSubmit_set_same ⟨tid, tsp, tok, .doneRejected⟩ hget (by simp)]
        exact hI.refsEq
      · dsimp only
        rw [ids_set ⟨tid, tsp, tok, .doneRejected⟩ hget rfl]
        exact hI.nodup
      · intro u hmem
        dsimp only at hmem ⊢
        rcases mem_set_cases hget hI.nodup hmem with rfl | ⟨hold, hne⟩
        · refine ⟨hsp, ?_, hP, hF⟩
          rw [idEvents_snoc_true _ (by simp), hE]
          rfl
        · have hne2 : u.id ≠ tid := hne
          have hEv : idEvents u.id (c.events ++ [Event.completeOrig tid BLK_STS_IOERR]) =
              idEvents u.id c.events :=
            idEvents_snoc_false _ (by simpa using Ne.symm hne2)
          rw [hEv]
          exact hI.perId u hold
      · intro r hr
        dsimp only at hr ⊢
        have hrOld := orphans_ids_transfer ⟨tid, tsp, tok, .doneRejected⟩ hget rfl hr
        obtain ⟨h1, h2, h3⟩ := hI.orphans r hrOld
        have htidr : tid ≠ r := hrOld _ (mem_of_getElemQ hget)
        refine ⟨?_, h2, h3⟩
        rw [idEvents_snoc_false _ (by simpa using htidr), h1]
      · intro hd
        obtain ⟨h1, h2, h3, h4⟩ := hI.drainP hd
        refine ⟨h1, ?_, h3, h4⟩
        dsimp only
        rw [nAtSubmit_set_same ⟨tid, tsp, tok, .doneRejected⟩ hget (by simp)]
        exact h2
      · exact delShape_of_parts hI.delEvs rfl rfl rfl rfl rfl
          (by simp) (by simp) (by simp)
      · exact ordEvs_of_parts hI.ordEvs rfl rfl (by simp)
  case atInc =>
    have hs := hI.perId _ (mem_of_getElemQ hget)
    simp only [subShape] at hs
    obtain ⟨hsp, hok, hE, hP, hF⟩ := hs
    by_cases hz : c.dev.refs_cnt = 0
    all_goals
      simp only [hz, if_true, if_false, Option.some.injEq] at h
    case pos =>
      subst h
      refine ⟨?_, hI.delFlag, ?_, ?_, ?_, ?_, ?_, ?_⟩
      · dsimp only
        rw [nAtSubmit_set_same ⟨tid, tsp, tok, .doneRejected⟩ hget (by simp)]
        exact hI.refsEq
      · dsimp only
        rw [ids_set ⟨tid, tsp, tok, .doneRejected⟩ hget rfl]
        exact hI.nodup
      · intro u hmem
        dsimp only at hmem ⊢
        rcases mem_set_cases hget hI.nodup hmem with rfl | ⟨hold, hne⟩
        · refine ⟨hsp, ?_, hP, hF⟩
          rw [idEvents_snoc_true _ (by simp), hE]
          rfl
        · have hne2 : u.id ≠ tid := hne
          have hEv : idEvents u.id (c.events ++ [Event.completeOrig tid BLK_STS_IOERR]) =
              idEvents u.id c.events :=
            idEvents_snoc_false _ (by simpa using Ne.symm hne2)
          rw [hEv]
          exact hI.perId u hold
      · intro r hr
        dsimp only at hr ⊢
        have hrOld := orphans_ids_transfer ⟨tid, tsp, tok, .doneRejected⟩ hget rfl hr
        obtain ⟨h1, h2, h3⟩ := hI.orphans r hrOld
        have htidr : tid ≠ r := hrOld _ (mem_of_getElemQ hget)
        refine ⟨?_, h2, h3⟩
        rw [idEvents_snoc_false _ (by simpa using htidr), h1]
      · intro hd
        obtain ⟨h1, h2, h3, h4⟩ := hI.drainP hd
        refine ⟨h1, ?_, h3, h4⟩
        dsimp only
        rw [nAtSubmit_set_same ⟨tid, tsp, tok, .doneRejected⟩ hget (by simp)]
        exact h2
      · exact delShape_of_parts hI.delEvs rfl rfl rfl rfl rfl
          (by simp) (by simp) (by simp)
      · exact ordEvs_of_parts hI.ordEvs rfl rfl (by simp)
    case neg =>
      subst h
      refine ⟨?_, hI.delFlag, ?_, ?_, ?_, ?_, hI.delEvs, hI.ordEvs⟩
      · dsimp only
        rw [nAtSubmit_set_add ⟨tid, tsp, tok, .atSubmit⟩ hget (by simp) rfl]
        have hq := hI.refsEq
        push_cast at hq ⊢
        omega
      · dsimp only
        rw [ids_set ⟨tid, tsp, tok, .atSubmit⟩ hget rfl]
        exact hI.nodup
      · intro u hmem
        dsimp only at hmem ⊢
        rcases mem_set_cases hget hI.nodup hmem with rfl | ⟨hold, -⟩
        · exact ⟨hsp, hok, hE, hP, hF⟩
        · exact hI.perId u hold
      · intro r hr
        dsimp only at hr
        exact hI.orphans r (orphans_ids_transfer ⟨tid, tsp, tok, .atSubmit⟩ hget rfl hr)
      · intro hd
        exfalso
        obtain ⟨h1, h2, h3, h4⟩ := hI.drainP hd
        have hq := hI.refsEq
        rw [h1, h2, h3, h4] at hq
        simp at hq
        exact hz hq
  case atSubmit =>
    have hs := hI.perId _ (mem_of_getElemQ hget)
    simp only [subShape] at hs
    obtain ⟨hsp, hok, hE, hP, hF⟩ := hs
    simp only [Option.some.injEq] at h
    subst h
    refine ⟨?_, hI.delFlag, ?_, ?_, ?_, ?_, ?_, ?_⟩
    · dsimp only
      have hsub := nAtSubmit_set_sub ⟨tid, tsp, tok, .doneSubmitted⟩ hget rfl (by simp)
      have hq := hI.refsEq
      rw [hsub] at hq
      push_cast at hq ⊢
      simp only [List.length_append, List.length_cons, List.length_nil]
      push_cast
      omega
    · dsimp only
      rw [ids_set ⟨tid, tsp, tok, .doneSubmitted⟩ hget rfl]
      exact hI.nodup
    · intro u hmem
      dsimp only at hmem ⊢
      rcases mem_set_cases hget hI.nodup hmem with rfl | ⟨hold, hne⟩
      · refine ⟨hsp, hok, Or.inl ⟨?_, hF, ?_⟩⟩
        · rw [count_append_single_eq, hP]
        · rw [idEvents_snoc_true _ (by simp), hE]
          rfl
      · have hne2 : u.id ≠ tid := hne
        have hEv : idEvents u.id (c.events ++ [Event.submitClone tid]) =
            idEvents u.id c.events :=
          idEvents_snoc_false _ (by simpa using Ne.symm hne2)
        have hCnt : (c.pendingClones ++ [tid]).count u.id = c.pendingClones.count u.id :=
          count_append_single_ne (Ne.symm hne2)
        rw [hEv, hCnt]
        exact hI.perId u hold
    · intro r hr
      dsimp only at hr ⊢
      have hrOld := orphans_ids_transfer ⟨tid, tsp, tok, .doneSubmitted⟩ hget rfl hr
      obtain ⟨h1, h2, h3⟩ := hI.orphans r hrOld
      have htidr : tid ≠ r := hrOld _ (mem_of_getElemQ hget)
      refine ⟨?_, ?_, h3⟩
      · rw [idEvents_snoc_false _ (by simpa using htidr), h1]
      · rw [count_append_single_ne htidr, h2]
    · intro hd
      obtain ⟨h1, h2, h3, h4⟩ := hI.drainP hd
      exact absurd h2 (nAtSubmit_pos hget rfl)
    · exact delShape_of_parts hI.delEvs rfl rfl rfl rfl rfl
        (by simp) (by simp) (by simp)
    · exact ordEvs_of_parts hI.ordEvs rfl rfl (by simp)
  case doneNoop => exact absurd h (by simp)
  case doneRejected => exact absurd h (by simp)
  case doneSubmitted => exact absurd h (by simp)

theorem idEvents_append_nonid (r : Nat) (evs es : List Event)
    (hes : ∀ e ∈ es, eventFor r e = false) :
    idEvents r (evs ++ es) = idEvents r evs := by
  rw [idEvents_append]
  have hnil : idEvents r es = [] :=
    List.filter_eq_nil_iff.mpr (fun e he => by simp [hes e he])
  rw [hnil, List.append_nil]

theorem count_eraseIdx_self {l : List Nat} {i r : Nat} (h : l[i]? = some r) :
    (l.eraseIdx i).count r + 1 = l.count r := by
  rw [eraseIdx_decomp]
  conv_rhs => rw [list_decomp h]
  simp [List.count_append, List.count_cons]
  omega

theorem count_eraseIdx_ne {l : List Nat} {i r r2 : Nat} (h : l[i]? = some r)
    (hne : r2 ≠ r) : (l.eraseIdx i).count r2 = l.count r2 := by
  rw [eraseIdx_decomp]
  conv_rhs => rw [list_decomp h]
  simp [List.count_append, List.count_cons, Ne.symm hne]

theorem length_eraseIdx_of_getElemQ {l : List Nat} {i r : Nat} (h : l[i]? = some r) :
    (l.eraseIdx i).length + 1 = l.length := by
  rw [eraseIdx_decomp]
  conv_rhs => rw [list_decomp h]
  simp [List.length_append]
  omega

theorem endsFor_append (r : Nat) (a b : List EndThread) :
    endsFor r (a ++ b) = endsFor r a ++ endsFor r b :=
  List.filter_append a b

theorem nActiveEnds_append (a b : List EndThread) :
    nActiveEnds (a ++ b) = nActiveEnds a + nActiveEnds b :=
  List.countP_append _ a b

theorem nActiveEnds_set_same {es : List EndThread} {i : Nat} {e : EndThread}
    (e2 : EndThread) (hget : es[i]? = some e)
    (h1 : (e.pc != EndPc.doneEnd) = (e2.pc != EndPc.doneEnd)) :
    nActiveEnds (es.set i e2) = nActiveEnds es := by
  rw [set_decomp hget]
  conv_rhs => rw [list_decomp hget]
  simp [nActiveEnds, List.countP_append, List.countP_cons, h1]

theorem nActiveEnds_set_sub {es : List EndThread} {i : Nat} {e : EndThread}
    (e2 : EndThread) (hget : es[i]? = some e)
    (h1 : (e.pc != EndPc.doneEnd) = true) (h2 : (e2.pc != EndPc.doneEnd) = false) :
    nActiveEnds es = nActiveEnds (es.set i e2) + 1 := by
  rw [set_decomp hget]
  conv_lhs => rw [list_decomp hget]
  simp [nActiveEnds, List.countP_append, List.countP_cons, h1, h2]
  omega

theorem nActiveEnds_pos {es : List EndThread} {i : Nat} {e : EndThread}
    (hget : es[i]? = some e) (h : (e.pc != EndPc.doneEnd) = true) :
    nActiveEnds es ≠ 0 := by
  rw [list_decomp hget]
  simp [nActiveEnds, List.countP_append, List.countP_cons, h]

theorem singleton_middle {α : Type} {x y : α} {P Q : List α}
    (h : P ++ x :: Q = [y]) : P = [] ∧ Q = [] ∧ x = y := by
  cases P with
  | nil =>
      simp only [List.nil_append, List.cons.injEq] at h
      exact ⟨rfl, h.2, h.1⟩
  | cons a P2 =>
      simp only [List.cons_append, List.cons.injEq] at h
      exact absurd h.2 (by simp)

/-- Each atomic instruction of `sbdd_delete` preserves the invariant. -/
theorem inv_delStep {c c' : Config} (hI : SbddInv c)
    (h : step c .delStep = some c') : SbddInv c' := by
  rcases hdel : c.del with - | pc
  · rw [step, hdel] at h; exact absurd h (by simp)
  rw [step, hdel] at h
  have hq := hI.refsEq
  rw [hdel] at hq
  have hf := hI.delFlag
  rw [hdel] at hf
  have hs := hI.delEvs
  unfold delShape at hs
  rw [hdel] at hs
  cases pc
  case setFlag =>
    simp only [Option.some.injEq] at h
    subst h
    simp only [baselineRefs] at hq ⊢
    refine ⟨?_, rfl, hI.nodup, hI.perId, hI.orphans, ?_, ?_, hI.ordEvs⟩
    · exact hq
    · intro hd
      rw [hs.2.2] at hd
      cases hd
    · unfold delShape
      dsimp only
      exact hs
  case decBase =>
    simp only [Option.some.injEq] at h
    subst h
    simp only [baselineRefs] at hq
    have hpos : 0 < c.dev.refs_cnt := by
      rw [hq]; positivity
    refine ⟨?_, ?_, hI.nodup, hI.perId, hI.orphans, ?_, ?_, hI.ordEvs⟩
    · dsimp only
      rw [if_pos hpos]
      simp only [baselineRefs]
      omega
    · exact hf
    · intro hd
      rw [hs.2.2] at hd
      cases hd
    · unfold delShape
      dsimp only
      exact hs
  case waitDrain =>
    by_cases hz : c.dev.refs_cnt = 0
    all_goals simp only [hz, if_true, if_false, Option.some.injEq] at h
    case neg => exact absurd h (by simp)
    subst h
    simp only [baselineRefs] at hq
    rw [hz] at hq
    refine ⟨?_, hf, hI.nodup, hI.perId, hI.orphans, ?_, ?_, hI.ordEvs⟩
    · dsimp only
      rw [hz]
      simp only [baselineRefs]
      exact hq
    · intro _
      dsimp only
      refine ⟨rfl, ?_, ?_, ?_⟩
      · omega
      · have hb : c.pendingClones.length = 0 := by omega
        exact List.length_eq_zero.mp hb
      · omega
    · unfold delShape
      dsimp only
      exact ⟨rfl, hs.1, hs.2.1⟩
  case remove =>
    rcases hgd : c.dev.gd with - | d
    all_goals rw [hgd] at h; simp only [Option.some.injEq] at h
    case none =>
      subst h
      refine ⟨?_, hf, hI.nodup, hI.perId, hI.orphans, ?_, ?_, hI.ordEvs⟩
      · dsimp only
        simp only [baselineRefs] at hq ⊢
        exact hq
      · intro hd
        dsimp only
        obtain ⟨h1, h2, h3, h4⟩ := hI.drainP hd
        exact ⟨rfl, h2, h3, h4⟩
      · unfold delShape
        dsimp only
        rw [hgd]
        exact ⟨hs.1, hs.2.2, fun hne => absurd rfl hne⟩
    case some =>
      subst h
      refine ⟨?_, hf, hI.nodup, ?_, ?_, ?_, ?_, ?_⟩
      · dsimp only
        simp only [baselineRefs] at hq ⊢
        exact hq
      · intro u hmem
        dsimp only at hmem ⊢
        rw [idEvents_append_nonid _ _ _ (by intro e he; fin_cases he <;> rfl)]
        exact hI.perId u hmem
      · intro r hr
        dsimp only at hr ⊢
        obtain ⟨h1, h2, h3⟩ := hI.orphans r hr
        rw [idEvents_append_nonid _ _ _ (by intro e he; fin_cases he <;> rfl)]
        exact ⟨h1, h2, h3⟩
      · intro hd
        dsimp only
        obtain ⟨h1, h2, h3, h4⟩ := hI.drainP hd
        exact ⟨rfl, h2, h3, h4⟩
      · unfold delShape
        dsimp only
        rw [hgd]
        refine ⟨hs.1, noReleaseEvs_append hs.2.2 (by simp), fun hne => ?_⟩
        refine ⟨List.mem_append_right _ (by simp), List.mem_append_right _ (by simp), rfl⟩
      · exact ordEvs_of_parts hI.ordEvs rfl rfl (by simp)
  case release =>
    rcases hbd : c.dev.bd_handle with - | e | -
    all_goals rw [hbd] at h; simp only [Option.some.injEq] at h
    case null =>
      subst h
      refine ⟨?_, hf, hI.nodup, hI.perId, hI.orphans, ?_, ?_, hI.ordEvs⟩
      · dsimp only
        simp only [baselineRefs] at hq ⊢
        exact hq
      · intro hd
        dsimp only
        obtain ⟨h1, h2, h3, h4⟩ := hI.drainP hd
        exact ⟨rfl, h2, h3, h4⟩
      · unfold delShape
        dsimp only
        exact ⟨hs.1, hs.2.2⟩
    case errPtr =>
      subst h
      refine ⟨?_, hf, hI.nodup, ?_, ?_, ?_, ?_, ?_⟩
      · dsimp only
        simp only [baselineRefs] at hq ⊢
        exact hq
      · intro u hmem
        dsimp only at hmem ⊢
        rw [idEvents_append_nonid _ _ _ (by intro ev he; fin_cases he <;> rfl)]
        exact hI.perId u hmem
      · intro r hr
        dsimp only at hr ⊢
        obtain ⟨h1, h2, h3⟩ := hI.orphans r hr
        rw [idEvents_append_nonid _ _ _ (by intro ev he; fin_cases he <;> rfl)]
        exact ⟨h1, h2, h3⟩
      · intro hd
        dsimp only
        obtain ⟨h1, h2, h3, h4⟩ := hI.drainP hd
        exact ⟨rfl, h2, h3, h4⟩
      · unfold delShape
        dsimp only
        refine ⟨hs.1, fun hne => ?_⟩
        obtain ⟨ha, hb, hc2⟩ := hs.2.2 hne
        exact ⟨List.mem_append_left _ ha, List.mem_append_left _ hb, hc2⟩
      · rcases hI.ordEvs with ho | ho
        · exact Or.inl ho
        · rcases hgd : c.dev.gd with - | d
          · exact Or.inl rfl
          · right
            dsimp only
            exact relAfterRemove_snoc_rel ho (hs.2.2 (by rw [hgd]; simp)).1 _
    case valid =>
      subst h
      refine ⟨?_, hf, hI.nodup, ?_, ?_, ?_, ?_, ?_⟩
      · dsimp only
        simp only [baselineRefs] at hq ⊢
        exact hq
      · intro u hmem
        dsimp only at hmem ⊢
        rw [idEvents_append_nonid _ _ _ (by intro ev he; fin_cases he <;> rfl)]
        exact hI.perId u hmem
      · intro r hr
        dsimp only at hr ⊢
        obtain ⟨h1, h2, h3⟩ := hI.orphans r hr
        rw [idEvents_append_nonid _ _ _ (by intro ev he; fin_cases he <;> rfl)]
        exact ⟨h1, h2, h3⟩
      · intro hd
        dsimp only
        obtain ⟨h1, h2, h3, h4⟩ := hI.drainP hd
        exact ⟨rfl, h2, h3, h4⟩
      · unfold delShape
        dsimp only
        refine ⟨hs.1, fun hne => ?_⟩
        obtain ⟨ha, hb, hc2⟩ := hs.2.2 hne
        exact ⟨List.mem_append_left _ ha, List.mem_append_left _ hb, hc2⟩
      · rcases hI.ordEvs with ho | ho
        · exact Or.inl ho
        · rcases hgd : c.dev.gd with - | d
          · exact Or.inl rfl
          · right
            dsimp only
            exact relAfterRemove_snoc_rel ho (hs.2.2 (by rw [hgd]; simp)).1 _
  case doneDel => exact absurd h (by simp)

theorem endsFor_set_other {es : List EndThread} {i : Nat} {e : EndThread}
    (e2 : EndThread) (hget : es[i]? = some e) (r : Nat) (hne : e.id ≠ r)
    (hne2 : e2.id ≠ r) : endsFor r (es.set i e2) = endsFor r es := by
  rw [set_decomp hget]
  conv_rhs => rw [list_decomp hget]
  rw [endsFor_append, endsFor_append]
  congr 1
  simp [endsFor, List.filter_cons, hne, hne2]

/-- A completion-handler thread always belongs to some submit thread. -/
theorem end_thread_exists {c : Config} (hI : SbddInv c) {e : EndThread}
    (hmem : e ∈ c.ends) : ∃ u ∈ c.subs, u.id = e.id := by
  by_contra hno
  push_neg at hno
  have h3 := (hI.orphans e.id (fun t ht => hno t ht)).2.2
  have hein : e ∈ endsFor e.id c.ends := List.mem_filter.mpr ⟨hmem, by simp⟩
  rw [h3] at hein
  exact absurd hein (List.not_mem_nil e)

/-- The submit thread owning a running completion handler has submitted,
its clone is no longer pending, the handler is the unique one for its id,
and the handler's shape matches the trace. -/
theorem end_thread_shape {c : Config} (hI : SbddInv c) {e : EndThread} {u : SubThread}
    (hmem : e ∈ c.ends) (hu : u ∈ c.subs) (hid : e.id = u.id) :
    u.pc = SubPc.doneSubmitted ∧ u.splitSome = true ∧ u.cloneOk = true ∧
      c.pendingClones.count u.id = 0 ∧
      endsFor u.id c.ends = [e] ∧ endShape u.id (idEvents u.id c.events) e := by
  have hshape := hI.perId u hu
  have hein : e ∈ endsFor u.id c.ends := List.mem_filter.mpr ⟨hmem, by simp [hid]⟩
  cases hpc : u.pc
  all_goals simp only [subShape, hpc] at hshape
  case atSplit =>
    rw [hshape.2.2] at hein
    exact absurd hein (List.not_mem_nil e)
  case atAlloc =>
    rw [hshape.2.2.2] at hein
    exact absurd hein (List.not_mem_nil e)
  case atCheck =>
    rw [hshape.2.2.2.2] at hein
    exact absurd hein (List.not_mem_nil e)
  case atInc =>
    rw [hshape.2.2.2.2] at hein
    exact absurd hein (List.not_mem_nil e)
  case atSubmit =>
    rw [hshape.2.2.2.2] at hein
    exact absurd hein (List.not_mem_nil e)
  case doneNoop =>
    rw [hshape.2.2.2] at hein
    exact absurd hein (List.not_mem_nil e)
  case doneRejected =>
    rw [hshape.2.2.2] at hein
    exact absurd hein (List.not_mem_nil e)
  case doneSubmitted =>
    obtain ⟨hsp, hok, hd2⟩ := hshape
    rcases hd2 with ⟨-, hFe, -⟩ | ⟨h0, e2, hes2, -, hsh2⟩
    · rw [hFe] at hein
      exact absurd hein (List.not_mem_nil e)
    · rw [hes2] at hein
      rw [List.mem_singleton] at hein
      subst hein
      exact ⟨rfl, hsp, hok, h0, hes2, hsh2⟩

/-- Starting a completion handler (`spawnEndio`) preserves the invariant. -/
theorem inv_spawn {c c' : Config} {i : Nat} {st : Int} (hI : SbddInv c)
    (h : step c (.spawnEndio i st) = some c') : SbddInv c' := by
  rcases hp : c.pendingClones[i]? with - | r
  · rw [step, hp] at h; exact absurd h (by simp)
  rw [step, hp] at h
  simp only [Option.some.injEq] at h
  subst h
  have hrmem : r ∈ c.pendingClones := mem_of_getElemQ hp
  refine ⟨?_, hI.delFlag, hI.nodup, ?_, ?_, ?_, hI.delEvs, hI.ordEvs⟩
  · dsimp only
    have hlen := length_eraseIdx_of_getElemQ hp
    rw [nActiveEnds_append]
    have hone : nActiveEnds [⟨r, st, .atComplete⟩] = 1 := rfl
    rw [hone]
    have hq := hI.refsEq
    push_cast at hq ⊢
    omega
  · intro u hmem
    dsimp only at hmem ⊢
    have hshape := hI.perId u hmem
    by_cases hur : u.id = r
    · subst hur
      have hcnt : 0 < c.pendingClones.count u.id := List.count_pos_iff.mpr hrmem
      cases hpc : u.pc
      all_goals simp only [subShape, hpc] at hshape ⊢
      · exact absurd hshape.2.1 (by omega)
      · exact absurd hshape.2.2.1 (by omega)
      · exact absurd hshape.2.2.2.1 (by omega)
      · exact absurd hshape.2.2.2.1 (by omega)
      · exact absurd hshape.2.2.2.1 (by omega)
      · exact absurd hshape.2.1 (by omega)
      · exact absurd hshape.2.2.1 (by omega)
      ·
        obtain ⟨hsp, hok, hd2⟩ := hshape
        rcases hd2 with ⟨h1, hFe, hE⟩ | ⟨h0, e2, hes2, hid2, hsh2⟩
        · refine ⟨hsp, hok, Or.inr ⟨?_, ⟨u.id, st, .atComplete⟩, ?_, rfl, ?_⟩⟩
          · have hce := count_eraseIdx_self hp
            omega
          · rw [endsFor_append, hFe]
            simp [endsFor]
          · simp only [endShape]
            exact hE
        · exact absurd h0 (by omega)
    · have hc2 : (c.pendingClones.eraseIdx i).count u.id = c.pendingClones.count u.id :=
        count_eraseIdx_ne hp hur
      have he2 : endsFor u.id (c.ends ++ [⟨r, st, .atComplete⟩]) = endsFor u.id c.ends := by
        rw [endsFor_append]
        have hnil : endsFor u.id [⟨r, st, EndPc.atComplete⟩] = [] := by
          simp [endsFor]
          omega
        rw [hnil, List.append_nil]
      rw [hc2, he2]
      exact hshape
  · intro r2 hr2
    dsimp only at hr2 ⊢
    obtain ⟨h1, h2, h3⟩ := hI.orphans r2 hr2
    have hner : r2 ≠ r := by
      intro he
      subst he
      have := List.count_pos_iff.mpr hrmem
      omega
    refine ⟨h1, ?_, ?_⟩
    · rw [count_eraseIdx_ne hp hner]
      exact h2
    · rw [endsFor_append, h3]
      have hnil : endsFor r2 [⟨r, st, EndPc.atComplete⟩] = [] := by
        simp [endsFor]
        omega
      rw [hnil]
      rfl
  · intro hd
    dsimp only at hd
    exfalso
    have h3 := (hI.drainP hd).2.2.1
    rw [h3] at hp
    simp at hp

theorem endsFor_set_self {es : List EndThread} {i : Nat} {e : EndThread}
    (e2 : EndThread) (hget : es[i]? = some e) {r : Nat} (hid : e.id = r)
    (hid2 : e2.id = r) (hone : endsFor r es = [e]) :
    endsFor r (es.set i e2) = [e2] := by
  rw [list_decomp hget, endsFor_append] at hone
  rw [show endsFor r (e :: es.drop (i + 1)) = e :: endsFor r (es.drop (i + 1)) from by
    simp [endsFor, List.filter_cons, hid]] at hone
  obtain ⟨hP0, hQ0, -⟩ := singleton_middle hone
  rw [set_decomp hget, endsFor_append, hP0]
  rw [show endsFor r (e2 :: es.drop (i + 1)) = e2 :: endsFor r (es.drop (i + 1)) from by
    simp [endsFor, List.filter_cons, hid2]]
  rw [hQ0]
  rfl

/-- Each atomic instruction of `sbdd_bio_endio` preserves the invariant. -/
theorem inv_endStep {c c' : Config} {i : Nat} (hI : SbddInv c)
    (h : step c (.endStep i) = some c') : SbddInv c' := by
  rcases hget : c.ends[i]? with - | e
  · rw [step, hget] at h; exact absurd h (by simp)
  have hemem : e ∈ c.ends := mem_of_getElemQ hget
  obtain ⟨eid, est, epc⟩ := e
  rw [step, hget] at h
  cases epc
  case atComplete =>
    simp only [Option.some.injEq] at h
    subst h
    refine ⟨?_, hI.delFlag, hI.nodup, ?_, ?_, ?_, ?_, ?_⟩
    · dsimp only
      rw [nActiveEnds_set_same ⟨eid, est, .atPut⟩ hget rfl]
      exact hI.refsEq
    · intro u hmem
      dsimp only at hmem ⊢
      by_cases hur : eid = u.id
      · obtain ⟨hpcd, hsp, hok, h0, hFe, hShp⟩ := end_thread_shape hI hemem hmem hur
        simp only [endShape] at hShp
        have hnewEnds := endsFor_set_self ⟨eid, est, .atPut⟩ hget hur hur hFe
        have hnewE := idEvents_snoc_true (r := u.id)
          (e := Event.completeOrig eid (if est = 0 then 0 else BLK_STS_IOERR))
          c.events (by simp [hur])
        simp only [subShape, hpcd]
        refine ⟨hsp, hok, Or.inr ⟨h0, ⟨eid, est, .atPut⟩, hnewEnds, hur, ?_⟩⟩
        simp only [endShape]
        rw [hnewE, hShp, hur]
        rfl
      · have he2 : endsFor u.id (c.ends.set i ⟨eid, est, .atPut⟩) = endsFor u.id c.ends :=
          endsFor_set_other _ hget _ hur hur
        have hEv : idEvents u.id
            (c.events ++ [Event.completeOrig eid (if est = 0 then 0 else BLK_STS_IOERR)]) =
            idEvents u.id c.events :=
          idEvents_snoc_false _ (by simpa using hur)
        rw [he2, hEv]
        exact hI.perId u hmem
    · intro r2 hr2
      dsimp only at hr2 ⊢
      obtain ⟨h1, h2, h3⟩ := hI.orphans r2 hr2
      have hner : eid ≠ r2 := by
        intro he
        subst he
        have hein : (⟨eid, est, EndPc.atComplete⟩ : EndThread) ∈ endsFor eid c.ends :=
          List.mem_filter.mpr ⟨hemem, by simp⟩
        rw [h3] at hein
        exact absurd hein (List.not_mem_nil _)
      refine ⟨?_, h2, ?_⟩
      · rw [idEvents_snoc_false _ (by simpa using hner), h1]
      · rw [endsFor_set_other _ hget _ hner hner, h3]
    · intro hd
      dsimp only at hd
      exact absurd ((hI.drainP hd).2.2.2) (nActiveEnds_pos hget rfl)
    · exact delShape_of_parts hI.delEvs rfl rfl rfl rfl rfl (by simp) (by simp) (by simp)
    · exact ordEvs_of_parts hI.ordEvs rfl rfl (by simp)
  case atPut =>
    simp only [Option.some.injEq] at h
    subst h
    refine ⟨?_, hI.delFlag, hI.nodup, ?_, ?_, ?_, ?_, ?_⟩
    · dsimp only
      rw [nActiveEnds_set_same ⟨eid, est, .atDec⟩ hget rfl]
      exact hI.refsEq
    · intro u hmem
      dsimp only at hmem ⊢
      by_cases hur : eid = u.id
      · obtain ⟨hpcd, hsp, hok, h0, hFe, hShp⟩ := end_thread_shape hI hemem hmem hur
        simp only [endShape] at hShp
        have hnewEnds := endsFor_set_self ⟨eid, est, .atDec⟩ hget hur hur hFe
        have hnewE := idEvents_snoc_true (r := u.id) (e := Event.bioPut eid)
          c.events (by simp [hur])
        simp only [subShape, hpcd]
        refine ⟨hsp, hok, Or.inr ⟨h0, ⟨eid, est, .atDec⟩, hnewEnds, hur, ?_⟩⟩
        simp only [endShape]
        rw [hnewE, hShp, hur]
        rfl
      · have he2 : endsFor u.id (c.ends.set i ⟨eid, est, .atDec⟩) = endsFor u.id c.ends :=
          endsFor_set_other _ hget _ hur hur
        have hEv : idEvents u.id (c.events ++ [Event.bioPut eid]) =
            idEvents u.id c.events :=
          idEvents_snoc_false _ (by simpa using hur)
        rw [he2, hEv]
        exact hI.perId u hmem
    · intro r2 hr2
      dsimp only at hr2 ⊢
      obtain ⟨h1, h2, h3⟩ := hI.orphans r2 hr2
      have hner : eid ≠ r2 := by
        intro he
        subst he
        have hein : (⟨eid, est, EndPc.atPut⟩ : EndThread) ∈ endsFor eid c.ends :=
          List.mem_filter.mpr ⟨hemem, by simp⟩
        rw [h3] at hein
        exact absurd hein (List.not_mem_nil _)
      refine ⟨?_, h2, ?_⟩
      · rw [idEvents_snoc_false _ (by simpa using hner), h1]
      · rw [endsFor_set_other _ hget _ hner hner, h3]
    · intro hd
      dsimp only at hd
      exact absurd ((hI.drainP hd).2.2.2) (nActiveEnds_pos hget rfl)
    · exact delShape_of_parts hI.delEvs rfl rfl rfl rfl rfl (by simp) (by simp) (by simp)
    · exact ordEvs_of_parts hI.ordEvs rfl rfl (by simp)
  case atDec =>
    by_cases hz0 : c.dev.refs_cnt - 1 = 0
    all_goals simp only [hz0, if_true, if_false, Option.some.injEq] at h
    all_goals subst h
    all_goals refine ⟨?_, hI.delFlag, hI.nodup, ?_, ?_, ?_, ?_, ?_⟩
    case pos.refine_1 | neg.refine_1 =>
      dsimp only
      have hsub := nActiveEnds_set_sub ⟨eid, est, .doneEnd⟩ hget rfl rfl
      have hq := hI.refsEq
      rw [hsub] at hq
      push_cast at hq ⊢
      omega
    case pos.refine_2 | neg.refine_2 =>
      intro u hmem
      dsimp only at hmem ⊢
      by_cases hur : eid = u.id
      · obtain ⟨hpcd, hsp, hok, h0, hFe, hShp⟩ := end_thread_shape hI hemem hmem hur
        simp only [endShape] at hShp
        have hnewEnds := endsFor_set_self ⟨eid, est, .doneEnd⟩ hget hur hur hFe
        simp only [subShape, hpcd]
        refine ⟨hsp, hok, Or.inr ⟨h0, ⟨eid, est, .doneEnd⟩, hnewEnds, hur, ?_⟩⟩
        simp only [endShape]
        rw [idEvents_append, hShp, hur]
        simp [idEvents, List.filter]
      · have he2 : endsFor u.id (c.ends.set i ⟨eid, est, .doneEnd⟩) = endsFor u.id c.ends :=
          endsFor_set_other _ hget _ hur hur
        rw [he2, idEvents_append_nonid _ _ _ (by
          intro ev hev
          fin_cases hev <;> simp [hur])]
        exact hI.perId u hmem
    case pos.refine_3 | neg.refine_3 =>
      intro r2 hr2
      dsimp only at hr2 ⊢
      obtain ⟨h1, h2, h3⟩ := hI.orphans r2 hr2
      have hner : eid ≠ r2 := by
        intro he
        subst he
        have hein : (⟨eid, est, EndPc.atDec⟩ : EndThread) ∈ endsFor eid c.ends :=
          List.mem_filter.mpr ⟨hemem, by simp⟩
        rw [h3] at hein
        exact absurd hein (List.not_mem_nil _)
      refine ⟨?_, h2, ?_⟩
      · rw [idEvents_append_nonid _ _ _ (by
          intro ev hev
          fin_cases hev <;> simp [hner]), h1]
      · rw [endsFor_set_other _ hget _ hner hner, h3]
    case pos.refine_4 | neg.refine_4 =>
      intro hd
      dsimp only at hd
      exact absurd ((hI.drainP hd).2.2.2) (nActiveEnds_pos hget rfl)
    case pos.refine_5 | neg.refine_5 =>
      refine delShape_of_parts hI.delEvs rfl rfl rfl rfl rfl ?_ ?_ ?_
      all_goals simp
    case pos.refine_6 | neg.refine_6 =>
      refine ordEvs_of_parts hI.ordEvs rfl rfl ?_
      simp
  case doneEnd => exact absurd h (by simp)

/-- Every atomic instruction preserves the invariant. -/
theorem inv_step {c c' : Config} {a : Act} (hI : SbddInv c)
    (h : step c a = some c') : SbddInv c' := by
  cases a with
  | subStep i => exact inv_subStep hI h
  | delStep => exact inv_delStep hI h
  | spawnEndio i st => exact inv_spawn hI h
  | endStep i => exact inv_endStep hI h

/-- The invariant holds in every initial configuration. -/
theorem inv_init {c : Config} (h : InitOk c) : SbddInv c := by
  obtain ⟨hd, hrefs, hpc, hnd, hdel, hpend, hends, hevs, hdr⟩ := h
  have hns : nAtSubmit c.subs = 0 :=
    List.countP_eq_zero.mpr (fun t ht => by simp [hpc t ht])
  refine ⟨?_, ?_, hnd, ?_, ?_, ?_, ?_, ?_⟩
  · rw [hrefs, hns, hpend, hends]
    rcases hdel with hdel | hdel
    all_goals rw [hdel]
    all_goals simp [baselineRefs, nActiveEnds]
  · rcases hdel with hdel | hdel
    all_goals rw [hd, hdel]
    all_goals rfl
  · intro t ht
    simp only [subShape, hpc t ht]
    rw [hevs, hpend, hends]
    exact ⟨rfl, rfl, rfl⟩
  · intro r hr
    rw [hevs, hpend, hends]
    exact ⟨rfl, rfl, rfl⟩
  · intro hdd
    rw [hdr] at hdd
    cases hdd
  · unfold delShape
    rcases hdel with hdel | hdel
    all_goals rw [hdel, hevs, hdr]
    all_goals exact ⟨by simp [noRemoveEvs], by intro hh; simp [noReleaseEvs], rfl⟩
  · right
    intro j h2 hj
    rw [hevs] at hj
    simp at hj

theorem run_some_of_cons {c : Config} {a : Act} {as : List Act} {c' : Config}
    (h : run c (a :: as) = some c') :
    ∃ c1, step c a = some c1 ∧ run c1 as = some c' := by
  unfold run at h
  rcases hs : step c a with - | c1
  · rw [hs] at h; exact absurd h (by simp)
  · rw [hs] at h; exact ⟨c1, rfl, h⟩

/-- The invariant holds in every configuration reachable from an initial
configuration. -/
theorem inv_run {c0 c : Config} {as : List Act} (h0 : SbddInv c0)
    (h : run c0 as = some c) : SbddInv c := by
  induction as generalizing c0 with
  | nil =>
      unfold run at h
      simp only [Option.some.injEq] at h
      exact h ▸ h0
  | cons a rest ih =>
      obtain ⟨c1, hs, hr⟩ := run_some_of_cons h
      exact ih (inv_step h0 hs) hr

/-- Frame facts of a single step: the disk pointer, backing handle and
capacity never change, the deletion flag is monotone, the trace only
grows, and submit threads are neither created nor destroyed. -/
theorem step_basic {c c' : Config} {a : Act} (h : step c a = some c') :
    c'.dev.gd = c.dev.gd ∧ c'.dev.bd_handle = c.dev.bd_handle ∧
      c'.dev.capacity = c.dev.capacity ∧
      (c.dev.deleting = true → c'.dev.deleting = true) ∧
      (∃ es, c'.events = c.events ++ es) ∧
      c'.subs.length = c.subs.length ∧
      ((∀ i, a ≠ Act.subStep i) → c'.subs = c.subs) := by
  cases a with
  | subStep i =>
      rcases hget : c.subs[i]? with - | t
      · rw [step, hget] at h; exact absurd h (by simp)
      obtain ⟨tid, tsp, tok, tpc⟩ := t
      rw [step, hget] at h
      cases tpc
      case doneNoop => exact absurd h (by simp)
      case doneRejected => exact absurd h (by simp)
      case doneSubmitted => exact absurd h (by simp)
      case atSubmit =>
        simp only [Option.some.injEq] at h
        subst h
        exact ⟨rfl, rfl, rfl, fun hd => hd, ⟨_, rfl⟩, by simp,
          fun hna => absurd rfl (hna i)⟩
      all_goals
        simp only [Option.some.injEq] at h
      all_goals
        split at h
      all_goals
        simp only [Option.some.injEq] at h
      all_goals
        subst h
      all_goals
        first
        | exact ⟨rfl, rfl, rfl, fun hd => hd, ⟨_, rfl⟩, by simp,
            fun hna => absurd rfl (hna i)⟩
        | exact ⟨rfl, rfl, rfl, fun hd => hd, ⟨[], by simp⟩, by simp,
            fun hna => absurd rfl (hna i)⟩
  | delStep =>
      rcases hdel : c.del with - | pc
      · rw [step, hdel] at h; exact absurd h (by simp)
      rw [step, hdel] at h
      cases pc
      case doneDel => exact absurd h (by simp)
      case setFlag =>
        simp only [Option.some.injEq] at h
        subst h
        exact ⟨rfl, rfl, rfl, fun _ => rfl, ⟨[], by simp⟩, rfl, fun _ => rfl⟩
      case decBase =>
        simp only [Option.some.injEq] at h
        subst h
        exact ⟨rfl, rfl, rfl, fun hd => hd, ⟨[], by simp⟩, rfl, fun _ => rfl⟩
      case waitDrain =>
        simp only [Option.some.injEq] at h
        split at h
        · simp only [Option.some.injEq] at h
          subst h
          exact ⟨rfl, rfl, rfl, fun hd => hd, ⟨[], by simp⟩, rfl, fun _ => rfl⟩
        · exact absurd h (by simp)
      case remove =>
        simp only [Option.some.injEq] at h
        split at h
        all_goals simp only [Option.some.injEq] at h
        all_goals subst h
        · exact ⟨rfl, rfl, rfl, fun hd => hd, ⟨_, rfl⟩, rfl, fun _ => rfl⟩
        · exact ⟨rfl, rfl, rfl, fun hd => hd, ⟨[], by simp⟩, rfl, fun _ => rfl⟩
      case release =>
        simp only [Option.some.injEq] at h
        split at h
        all_goals simp only [Option.some.injEq] at h
        all_goals subst h
        · exact ⟨rfl, rfl, rfl, fun hd => hd, ⟨[], by simp⟩, rfl, fun _ => rfl⟩
        all_goals exact ⟨rfl, rfl, rfl, fun hd => hd, ⟨_, rfl⟩, rfl, fun _ => rfl⟩
  | spawnEndio i st =>
      rcases hp : c.pendingClones[i]? with - | r
      · rw [step, hp] at h; exact absurd h (by simp)
      rw [step, hp] at h
      simp only [Option.some.injEq] at h
      subst h
      exact ⟨rfl, rfl, rfl, fun hd => hd, ⟨[], by simp⟩, rfl, fun _ => rfl⟩
  | endStep i =>
      rcases hget : c.ends[i]? with - | e
      · rw [step, hget] at h; exact absurd h (by simp)
      obtain ⟨eid, est, epc⟩ := e
      rw [step, hget] at h
      cases epc
      case doneEnd => exact absurd h (by simp)
      all_goals
        simp only [Option.some.injEq] at h
      all_goals
        subst h
      all_goals
        exact ⟨rfl, rfl, rfl, fun hd => hd, ⟨_, rfl⟩, rfl, fun _ => rfl⟩

/-- Frame facts along a whole run. -/
theorem run_basic {c c' : Config} {as : List Act} (h : run c as = some c') :
    c'.dev.gd = c.dev.gd ∧ c'.dev.bd_handle = c.dev.bd_handle ∧
      c'.dev.capacity = c.dev.capacity ∧
      (c.dev.deleting = true → c'.dev.deleting = true) ∧
      (∃ es, c'.events = c.events ++ es) ∧
      c'.subs.length = c.subs.length := by
  induction as generalizing c with
  | nil =>
      unfold run at h
      simp only [Option.some.injEq] at h
      subst h
      exact ⟨rfl, rfl, rfl, fun hd => hd, ⟨[], by simp⟩, rfl⟩
  | cons a rest ih =>
      obtain ⟨c1, hs, hr⟩ := run_some_of_cons h
      obtain ⟨h1, h2, h3, h4, ⟨es1, h5⟩, h6, -⟩ := step_basic hs
      obtain ⟨g1, g2, g3, g4, ⟨es2, g5⟩, g6⟩ := ih hr
      refine ⟨g1.trans h1, g2.trans h2, g3.trans h3, fun hd => g4 (h4 hd), ?_,
        g6.trans h6⟩
      exact ⟨es1 ++ es2, by rw [g5, h5, List.append_assoc]⟩

/-- A `subStep` replaces exactly the acted-on thread, keeping its id. -/
theorem step_subStep_set {c c' : Config} {i : Nat}
    (h : step c (.subStep i) = some c') :
    ∃ t0 x, c.subs[i]? = some t0 ∧ x.id = t0.id ∧ c'.subs = c.subs.set i x := by
  rcases hget : c.subs[i]? with - | t
  · rw [step, hget] at h; exact absurd h (by simp)
  obtain ⟨tid, tsp, tok, tpc⟩ := t
  rw [step, hget] at h
  cases tpc
  case doneNoop => exact absurd h (by simp)
  case doneRejected => exact absurd h (by simp)
  case doneSubmitted => exact absurd h (by simp)
  case atSubmit =>
    simp only [Option.some.injEq] at h
    subst h
    refine ⟨_, _, rfl, ?_, rfl⟩
    rfl
  all_goals
    simp only [Option.some.injEq] at h
  all_goals
    split at h
  all_goals
    simp only [Option.some.injEq] at h
  all_goals
    subst h
  all_goals
    refine ⟨_, _, rfl, ?_, rfl⟩
  all_goals
    rfl

/-- Finished submit threads never change again. -/
theorem step_done_stable {c c' : Config} {a : Act} {j : Nat} {t : SubThread}
    (h : step c a = some c') (hj : c.subs[j]? = some t)
    (hD : t.pc = SubPc.doneNoop ∨ t.pc = SubPc.doneRejected ∨
      t.pc = SubPc.doneSubmitted) :
    c'.subs[j]? = some t := by
  cases a with
  | subStep i =>
      obtain ⟨t0, x, hget, hid, hset⟩ := step_subStep_set h
      by_cases hij : i = j
      · subst hij
        obtain ⟨tid, tsp, tok, tpc⟩ := t
        rcases hD with hp | hp | hp
        all_goals dsimp only at hp
        all_goals subst hp
        all_goals rw [step, hj] at h
        all_goals exact absurd h (by simp)
      · rw [hset, List.getElem?_set_ne hij]
        exact hj
  | delStep =>
      rw [(step_basic h).2.2.2.2.2.2 (fun i => by simp)]
      exact hj
  | spawnEndio i st =>
      rw [(step_basic h).2.2.2.2.2.2 (fun i => by simp)]
      exact hj
  | endStep i =>
      rw [(step_basic h).2.2.2.2.2.2 (fun i => by simp)]
      exact hj

/-- Finished submit threads never change along a run. -/
theorem run_done_stable {c c' : Config} {as : List Act} {j : Nat} {t : SubThread}
    (h : run c as = some c') (hj : c.subs[j]? = some t)
    (hD : t.pc = SubPc.doneNoop ∨ t.pc = SubPc.doneRejected ∨
      t.pc = SubPc.doneSubmitted) :
    c'.subs[j]? = some t := by
  induction as generalizing c with
  | nil =>
      unfold run at h
      simp only [Option.some.injEq] at h
      subst h
      exact hj
  | cons a rest ih =>
      obtain ⟨c1, hs, hr⟩ := run_some_of_cons h
      exact ih hr (step_done_stable hs hj hD)

/-- Program counters a submit thread can be at when it has not been (and
can no longer be) admitted. -/
def StuckPc (p : SubPc) : Prop :=
  p = SubPc.atSplit ∨ p = SubPc.atAlloc ∨ p = SubPc.atCheck ∨
    p = SubPc.doneNoop ∨ p = SubPc.doneRejected

/-- Once the deletion flag is set, a thread that has not yet passed its
admission check can never be admitted: it stays before the check or
finishes through a non-admission exit. -/
theorem step_stuck {c c' : Config} {a : Act} {j : Nat} {t : SubThread}
    (h : step c a = some c') (hdel : c.dev.deleting = true)
    (hj : c.subs[j]? = some t) (hS : StuckPc t.pc) :
    ∃ t', c'.subs[j]? = some t' ∧ t'.id = t.id ∧ t'.splitSome = t.splitSome ∧
      t'.cloneOk = t.cloneOk ∧ StuckPc t'.pc := by
  cases a with
  | subStep i =>
      by_cases hij : i = j
      · subst hij
        have hlen : i < c.subs.length := (List.getElem?_eq_some.mp hj).1
        obtain ⟨tid, tsp, tok, tpc⟩ := t
        rw [step, hj] at h
        rcases hS with hp | hp | hp | hp | hp
        all_goals dsimp only at hp
        all_goals subst hp
        -- atSplit
        · cases tsp
          all_goals simp only [Bool.false_eq_true, if_false, if_true,
            Option.some.injEq] at h
          all_goals subst h
          · exact ⟨_, List.getElem?_set_eq_of_lt _ hlen, rfl, rfl, rfl,
              Or.inr (Or.inr (Or.inr (Or.inl rfl)))⟩
          · exact ⟨_, List.getElem?_set_eq_of_lt _ hlen, rfl, rfl, rfl,
              Or.inr (Or.inl rfl)⟩
        -- atAlloc
        · cases tok
          all_goals simp only [Bool.false_eq_true, if_false, if_true,
            Option.some.injEq] at h
          all_goals subst h
          · exact ⟨_, List.getElem?_set_eq_of_lt _ hlen, rfl, rfl, rfl,
              Or.inr (Or.inr (Or.inr (Or.inr rfl)))⟩
          · exact ⟨_, List.getElem?_set_eq_of_lt _ hlen, rfl, rfl, rfl,
              Or.inr (Or.inr (Or.inl rfl))⟩
        -- atCheck: the deleting flag is observed set, so the thread
        -- fails the original bio and finishes
        · simp only [hdel, if_true, Option.some.injEq] at h
          subst h
          exact ⟨_, List.getElem?_set_eq_of_lt _ hlen, rfl, rfl, rfl,
            Or.inr (Or.inr (Or.inr (Or.inr rfl)))⟩
        · exact absurd h (by simp)
        · exact absurd h (by simp)
      · obtain ⟨t0, x, hget, hid, hset⟩ := step_subStep_set h
        refine ⟨t, ?_, rfl, rfl, rfl, hS⟩
        rw [hset, List.getElem?_set_ne hij]
        exact hj
  | delStep =>
      refine ⟨t, ?_, rfl, rfl, rfl, hS⟩
      rw [(step_basic h).2.2.2.2.2.2 (fun i => by simp)]
      exact hj
  | spawnEndio i st =>
      refine ⟨t, ?_, rfl, rfl, rfl, hS⟩
      rw [(step_basic h).2.2.2.2.2.2 (fun i => by simp)]
      exact hj
  | endStep i =>
      refine ⟨t, ?_, rfl, rfl, rfl, hS⟩
      rw [(step_basic h).2.2.2.2.2.2 (fun i => by simp)]
      exact hj

/-- `step_stuck`, extended along a run. -/
theorem run_stuck {c c' : Config} {as : List Act} {j : Nat} {t : SubThread}
    (h : run c as = some c') (hdel : c.dev.deleting = true)
    (hj : c.subs[j]? = some t) (hS : StuckPc t.pc) :
    ∃ t', c'.subs[j]? = some t' ∧ t'.id = t.id ∧ t'.splitSome = t.splitSome ∧
      t'.cloneOk = t.cloneOk ∧ StuckPc t'.pc := by
  induction as generalizing c t with
  | nil =>
      unfold run at h
      simp only [Option.some.injEq] at h
      subst h
      exact ⟨t, hj, rfl, rfl, rfl, hS⟩
  | cons a rest ih =>
      obtain ⟨c1, hs, hr⟩ := run_some_of_cons h
      obtain ⟨t1, hj1, hid, hsp, hok, hS1⟩ := step_stuck hs hdel hj hS
      obtain ⟨t', hj', hid', hsp', hok', hS'⟩ :=
        ih hr ((step_basic hs).2.2.2.1 hdel) hj1 hS1
      exact ⟨t', hj', hid'.trans hid, hsp'.trans hsp, hok'.trans hok, hS'⟩

theorem baselineRefs_nonneg (d : Option DelPc) : 0 ≤ baselineRefs d := by
  rcases d with - | pc
  · simp [baselineRefs]
  · cases pc
    all_goals simp [baselineRefs]

theorem submitClone_mem_append_oth {r : Nat} {evs es : List Event}
    (hes : ∀ r2, Event.submitClone r2 ∉ es)
    (h : Event.submitClone r ∈ evs ++ es) : Event.submitClone r ∈ evs := by
  rcases List.mem_append.mp h with h1 | h1
  · exact h1
  · exact absurd h1 (hes r)

/-- Drain permanence over one step: once the deletion flag is set and the
counter has hit zero, the counter stays zero and no clone is ever
submitted again. -/
theorem step_drain_perm {c c' : Config} {a : Act} (hI : SbddInv c)
    (h : step c a = some c') (hdel : c.dev.deleting = true)
    (hz : c.dev.refs_cnt = 0) :
    c'.dev.refs_cnt = 0 ∧
      (∀ r, Event.submitClone r ∈ c'.events → Event.submitClone r ∈ c.events) := by
  have hq := hI.refsEq
  rw [hz] at hq
  have hb := baselineRefs_nonneg c.del
  have hsub0 : nAtSubmit c.subs = 0 := by omega
  have hpend0 : c.pendingClones.length = 0 := by omega
  have hend0 : nActiveEnds c.ends = 0 := by omega
  cases a with
  | subStep i =>
      rcases hget : c.subs[i]? with - | t
      · rw [step, hget] at h; exact absurd h (by simp)
      obtain ⟨tid, tsp, tok, tpc⟩ := t
      rw [step, hget] at h
      cases tpc
      case doneNoop => exact absurd h (by simp)
      case doneRejected => exact absurd h (by simp)
      case doneSubmitted => exact absurd h (by simp)
      case atSubmit => exact absurd hsub0 (nAtSubmit_pos hget rfl)
      case atInc =>
        simp only [Option.some.injEq] at h
        rw [if_pos hz] at h
        simp only [Option.some.injEq] at h
        subst h
        exact ⟨hz, fun r hr => submitClone_mem_append_oth (by simp) hr⟩
      case atSplit =>
        simp only [Option.some.injEq] at h
        split at h
        all_goals simp only [Option.some.injEq] at h
        all_goals subst h
        all_goals exact ⟨hz, fun r hr => hr⟩
      case atAlloc =>
        simp only [Option.some.injEq] at h
        split at h
        all_goals simp only [Option.some.injEq] at h
        all_goals subst h
        · exact ⟨hz, fun r hr => hr⟩
        · exact ⟨hz, fun r hr => submitClone_mem_append_oth (by simp) hr⟩
      case atCheck =>
        simp only [Option.some.injEq] at h
        split at h
        all_goals simp only [Option.some.injEq] at h
        all_goals subst h
        all_goals first
          | exact ⟨hz, fun r hr => submitClone_mem_append_oth (by simp) hr⟩
          | exact ⟨hz, fun r hr => hr⟩
  | delStep =>
      rcases hdp : c.del with - | pc
      · rw [step, hdp] at h; exact absurd h (by simp)
      rw [step, hdp] at h
      cases pc
      case doneDel => exact absurd h (by simp)
      case setFlag =>
        exfalso
        have hf := hI.delFlag
        rw [hdp, hdel] at hf
        exact absurd hf.symm (by simp [delStarted])
      case decBase =>
        simp only [Option.some.injEq] at h
        subst h
        refine ⟨?_, fun r hr => hr⟩
        dsimp only
        rw [hz]
        simp
      case waitDrain =>
        simp only [Option.some.injEq] at h
        rw [if_pos hz] at h
        simp only [Option.some.injEq] at h
        subst h
        exact ⟨hz, fun r hr => hr⟩
      case remove =>
        simp only [Option.some.injEq] at h
        split at h
        all_goals simp only [Option.some.injEq] at h
        all_goals subst h
        · exact ⟨hz, fun r hr => submitClone_mem_append_oth (by simp) hr⟩
        · exact ⟨hz, fun r hr => hr⟩
      case release =>
        simp only [Option.some.injEq] at h
        split at h
        all_goals simp only [Option.some.injEq] at h
        all_goals subst h
        · exact ⟨hz, fun r hr => hr⟩
        all_goals exact ⟨hz, fun r hr => submitClone_mem_append_oth (by simp) hr⟩
  | spawnEndio i st =>
      rcases hp : c.pendingClones[i]? with - | r
      · rw [step, hp] at h; exact absurd h (by simp)
      exfalso
      rw [List.length_eq_zero.mp hpend0] at hp
      simp at hp
  | endStep i =>
      rcases hget : c.ends[i]? with - | e
      · rw [step, hget] at h; exact absurd h (by simp)
      obtain ⟨eid, est, epc⟩ := e
      cases epc
      case doneEnd => rw [step, hget] at h; exact absurd h (by simp)
      all_goals exact absurd hend0 (nActiveEnds_pos hget rfl)

/-- Drain permanence along a run. -/
theorem run_drain_perm {c c' : Config} {as : List Act} (hI : SbddInv c)
    (h : run c as = some c') (hdel : c.dev.deleting = true)
    (hz : c.dev.refs_cnt = 0) :
    c'.dev.refs_cnt = 0 ∧
      (∀ r, Event.submitClone r ∈ c'.events → Event.submitClone r ∈ c.events) := by
  induction as generalizing c with
  | nil =>
      unfold run at h
      simp only [Option.some.injEq] at h
      subst h
      exact ⟨hz, fun r hr => hr⟩
  | cons a rest ih =>
      obtain ⟨c1, hs, hr⟩ := run_some_of_cons h
      obtain ⟨hz1, hev1⟩ := step_drain_perm hI hs hdel hz
      obtain ⟨hz', hev'⟩ := ih (inv_step hI hs) hr ((step_basic hs).2.2.2.1 hdel) hz1
      exact ⟨hz', fun r hr2 => hev1 r (hev' r hr2)⟩

/-- The counter only changes through `atomic_inc_not_zero` (which
requires a non-zero current value) or one of the two decrements. -/
theorem step_refs {c c' : Config} {a : Act} (h : step c a = some c') :
    c'.dev.refs_cnt = c.dev.refs_cnt ∨
      (c.dev.refs_cnt ≠ 0 ∧ c'.dev.refs_cnt = c.dev.refs_cnt + 1) ∨
      c'.dev.refs_cnt = c.dev.refs_cnt - 1 := by
  cases a with
  | subStep i =>
      rcases hget : c.subs[i]? with - | t
      · rw [step, hget] at h; exact absurd h (by simp)
      obtain ⟨tid, tsp, tok, tpc⟩ := t
      rw [step, hget] at h
      cases tpc
      case doneNoop => exact absurd h (by simp)
      case doneRejected => exact absurd h (by simp)
      case doneSubmitted => exact absurd h (by simp)
      case atSubmit =>
        simp only [Option.some.injEq] at h
        subst h
        exact Or.inl rfl
      case atInc =>
        simp only [Option.some.injEq] at h
        by_cases hz : c.dev.refs_cnt = 0
        · rw [if_pos hz] at h
          simp only [Option.some.injEq] at h
          subst h
          exact Or.inl rfl
        · rw [if_neg hz] at h
          simp only [Option.some.injEq] at h
          subst h
          exact Or.inr (Or.inl ⟨hz, rfl⟩)
      all_goals
        simp only [Option.some.injEq] at h
      all_goals
        split at h
      all_goals
        simp only [Option.some.injEq] at h
      all_goals
        subst h
      all_goals
        exact Or.inl rfl
  | delStep =>
      rcases hdp : c.del with - | pc
      · rw [step, hdp] at h; exact absurd h (by simp)
      rw [step, hdp] at h
      cases pc
      case doneDel => exact absurd h (by simp)
      case setFlag =>
        simp only [Option.some.injEq] at h
        subst h
        exact Or.inl rfl
      case decBase =>
        simp only [Option.some.injEq] at h
        subst h
        by_cases hpos : 0 < c.dev.refs_cnt
        · right; right
          dsimp only
          rw [if_pos hpos]
        · left
          dsimp only
          rw [if_neg hpos]
      case waitDrain =>
        simp only [Option.some.injEq] at h
        split at h
        · simp only [Option.some.injEq] at h
          subst h
          exact Or.inl rfl
        · exact absurd h (by simp)
      case remove =>
        simp only [Option.some.injEq] at h
        split at h
        all_goals simp only [Option.some.injEq] at h
        all_goals subst h
        all_goals exact Or.inl rfl
      case release =>
        simp only [Option.some.injEq] at h
        split at h
        all_goals simp only [Option.some.injEq] at h
        all_goals subst h
        all_goals exact Or.inl rfl
  | spawnEndio i st =>
      rcases hp : c.pendingClones[i]? with - | r
      · rw [step, hp] at h; exact absurd h (by simp)
      rw [step, hp] at h
      simp only [Option.some.injEq] at h
      subst h
      exact Or.inl rfl
  | endStep i =>
      rcases hget : c.ends[i]? with - | e
      · rw [step, hget] at h; exact absurd h (by simp)
      obtain ⟨eid, est, epc⟩ := e
      rw [step, hget] at h
      cases epc
      case doneEnd => exact absurd h (by simp)
      case atDec =>
        simp only [Option.some.injEq] at h
        subst h
        exact Or.inr (Or.inr rfl)
      all_goals
        simp only [Option.some.injEq] at h
      all_goals
        subst h
      all_goals
        exact Or.inl rfl

theorem refs_nonneg {c : Config} (hI : SbddInv c) : 0 ≤ c.dev.refs_cnt := by
  have hq := hI.refsEq
  have hb := baselineRefs_nonneg c.del
  omega

/-- C1: in every configuration reachable by any interleaving of
forwarding, completion and deletion steps from a freshly created device,
the in-flight counter `refs_cnt` is non-negative; and whenever a step
increases the counter (the admission-path `atomic_inc_not_zero`), the
counter was strictly positive before the step and the increment is
exactly one — the counter is never incremented from zero. -/
theorem sbdd_C1_refs_invariant (c0 c : Config) (as : List Act)
    (h0 : InitOk c0) (h : run c0 as = some c) :
    0 ≤ c.dev.refs_cnt ∧
      ∀ (a : Act) (c' : Config), step c a = some c' →
        c.dev.refs_cnt < c'.dev.refs_cnt →
        0 < c.dev.refs_cnt ∧ c'.dev.refs_cnt = c.dev.refs_cnt + 1 := by
  have hI := inv_run (inv_init h0) h
  have hnn := refs_nonneg hI
  refine ⟨hnn, fun a c' hs hlt => ?_⟩
  rcases step_refs hs with he | ⟨hz, he⟩ | he
  · omega
  · omega
  · omega

/-- C4: the completion handler passes the completion status through:
when the clone's `bi_status` is zero the original bio is completed with
status zero (`bio_endio`), and when it is non-zero the original bio is
completed with the failure status `BLK_STS_IOERR` (`bio_io_error`),
which is non-zero. -/
theorem sbdd_C4_status_passthrough (c : Config) (i : Nat) (e : EndThread)
    (hget : c.ends[i]? = some e) (hpc : e.pc = EndPc.atComplete) :
    ∃ c', step c (.endStep i) = some c' ∧
      (e.status = 0 → c'.events = c.events ++ [Event.completeOrig e.id 0]) ∧
      (e.status ≠ 0 →
        c'.events = c.events ++ [Event.completeOrig e.id BLK_STS_IOERR] ∧
        BLK_STS_IOERR ≠ 0) := by
  obtain ⟨eid, est, epc⟩ := e
  dsimp only at hpc
  subst hpc
  refine ⟨_, by rw [step, hget], ?_, ?_⟩
  · intro hst
    dsimp only at hst ⊢
    rw [if_pos hst]
  · intro hst
    dsimp only at hst ⊢
    rw [if_neg hst]
    exact ⟨rfl, by decide⟩

/-- C7: when `bio_alloc_clone` fails, the original bio is failed with an
I/O error and nothing else happens: the shared device record (including
`refs_cnt` and `deleting`) is untouched, no clone is submitted to the
backing device, no completion handler is created, and only the acting
thread's program counter changes. -/
theorem sbdd_C7_alloc_failure (c : Config) (i : Nat) (t : SubThread)
    (hget : c.subs[i]? = some t) (hpc : t.pc = SubPc.atAlloc)
    (hfail : t.cloneOk = false) :
    ∃ c', step c (.subStep i) = some c' ∧
      c'.dev = c.dev ∧
      c'.events = c.events ++ [Event.completeOrig t.id BLK_STS_IOERR] ∧
      BLK_STS_IOERR ≠ 0 ∧
      c'.pendingClones = c.pendingClones ∧
      c'.ends = c.ends ∧
      c'.del = c.del ∧
      c'.subs = c.subs.set i { t with pc := SubPc.doneRejected } := by
  obtain ⟨tid, tsp, tok, tpc⟩ := t
  dsimp only at hpc hfail
  subst hpc
  subst hfail
  have hs : step c (.subStep i) = some
      { c with
        subs := c.subs.set i ⟨tid, tsp, false, .doneRejected⟩,
        events := c.events ++ [Event.completeOrig tid BLK_STS_IOERR] } := by
    rw [step, hget]
    rfl
  exact ⟨_, hs, rfl, rfl, by decide, rfl, rfl, rfl, rfl⟩

/-- The device state established by a successful creation over a backing
device of `cap` sectors, before registration with the host. -/
def createdSt (cap : Nat) : Sbdd :=
  { deleting := false, refs_cnt := 1, capacity := cap,
    gd := some ⟨cap⟩, bd_handle := .valid, registered := false }

/-- C6: when both `bdev_open_by_path` and `blk_alloc_disk` succeed, the
state just before `add_disk` is called (the registration with the host)
has the capacity copied from the backing device's sector count, the
disk object reporting that same capacity, `deleting` still false, the
counter at exactly its baseline 1, and the device not yet registered. -/
theorem sbdd_C6_create_initial_state (o : CreateOracle)
    (hopen : o.openRes = CallRes.ok) (halloc : o.allocRes = CallRes.ok) :
    sbdd_create_preadd sbdd0 o = .ok (createdSt o.backingCap) ∧
      (createdSt o.backingCap).capacity = o.backingCap ∧
      (createdSt o.backingCap).gd = some ⟨o.backingCap⟩ ∧
      (createdSt o.backingCap).deleting = false ∧
      (createdSt o.backingCap).refs_cnt = 1 ∧
      (createdSt o.backingCap).registered = false := by
  refine ⟨?_, rfl, rfl, rfl, rfl, rfl⟩
  unfold sbdd_create_preadd
  rw [hopen, halloc]
  rfl

/-- The device state left behind when `blk_alloc_disk` fails (the open
had succeeded; `gd` was reset to NULL). -/
def allocFailSt (cap : Nat) : Sbdd :=
  { deleting := false, refs_cnt := 0, capacity := cap,
    gd := none, bd_handle := .valid, registered := false }

/-- C8: on any creation failure — open failure, disk-allocation failure
(whose `PTR_ERR` code is negative), or `add_disk` failure — `sbdd_init`
returns a non-zero status and invokes `sbdd_delete` for teardown; in the
registration-failure case the teardown removes the disk and releases the
opened backing handle. -/
theorem sbdd_C8_creation_failure (o : CreateOracle)
    (herr : ∀ e, o.allocRes = CallRes.err e → e < 0)
    (hfail : (∃ e, o.openRes = CallRes.err e) ∨
      (∃ e, o.allocRes = CallRes.err e) ∨ o.addRet ≠ 0) :
    (sbdd_init sbdd0 o).ret ≠ 0 ∧
      (sbdd_init sbdd0 o).deleted = true ∧
      (o.openRes = CallRes.ok → o.allocRes = CallRes.ok → o.addRet ≠ 0 →
        ∃ s', (sbdd_init sbdd0 o).finalSt =
          some (s', [Event.delGendisk, Event.putDisk, Event.bdevRelease .valid])) := by
  rcases ho : o.openRes with - | e1
  · rcases ha : o.allocRes with - | e2
    · have haddne : o.addRet ≠ 0 := by
        rcases hfail with ⟨e, he⟩ | ⟨e, he⟩ | he
        · rw [ho] at he; cases he
        · rw [ha] at he; cases he
        · exact he
      have hcr : sbdd_create sbdd0 o = (o.addRet, createdSt o.backingCap) := by
        unfold sbdd_create
        rw [(sbdd_C6_create_initial_state o ho ha).1]
        dsimp only
        rw [if_neg haddne]
      unfold sbdd_init
      rw [hcr]
      dsimp only
      rw [if_neg haddne]
      exact ⟨haddne, rfl, fun _ _ _ => ⟨_, rfl⟩⟩
    · have he2 : e2 < 0 := herr e2 ha
      have hcr : sbdd_create sbdd0 o = (e2, allocFailSt o.backingCap) := by
        unfold sbdd_create sbdd_create_preadd
        rw [ho, ha]
        rfl
      unfold sbdd_init
      rw [hcr]
      dsimp only
      rw [if_neg (show ¬e2 = 0 by omega)]
      exact ⟨(by omega : ¬e2 = 0), rfl, fun _ hok2 _ => by cases hok2⟩
  · have hcr : sbdd_create sbdd0 o =
        (-1, { sbdd0 with bd_handle := .errPtr e1 }) := by
      unfold sbdd_create sbdd_create_preadd
      rw [ho]
    unfold sbdd_init
    rw [hcr]
    dsimp only
    rw [if_neg (show ¬(-1 : Int) = 0 by decide)]
    exact ⟨(by decide : ¬(-1 : Int) = 0), rfl, fun hok _ _ => by cases hok⟩

/-- C3 (code bug): when `bdev_open_by_path` fails, `sbdd_create` leaves
the returned `ERR_PTR` stored in `__sbdd.bd_handle` (unlike the
`blk_alloc_disk` failure path, which resets `gd` to NULL).  Running
`sbdd_delete` afterwards skips the disk release (no disk exists) but its
`if (__sbdd.bd_handle)` test is passed by the non-null error pointer, so
`bdev_release` is called on the `ERR_PTR` value — a release of a handle
that was never acquired. -/
theorem sbdd_C3_errptr_release :
    sbdd_delete (sbdd_create sbdd0
        { openRes := .err (-2), backingCap := 0, allocRes := .ok, addRet := 0 }).2 =
      some ({ sbdd0 with deleting := true, bd_handle := .errPtr (-2) },
        [Event.bdevRelease (.errPtr (-2))]) := rfl

/-- A removal or release event can only have been emitted after the
drain wait returned. -/
theorem delEvs_drained {c : Config} (hI : SbddInv c)
    (hmem : Event.delGendisk ∈ c.events ∨ ∃ hh, Event.bdevRelease hh ∈ c.events) :
    c.drained = true := by
  have hds := hI.delEvs
  unfold delShape at hds
  rcases hdc : c.del with - | pc
  · rw [hdc] at hds
    rcases hmem with hm | ⟨hh, hm⟩
    · exact absurd hm hds.1.1
    · exact absurd hm (hds.2.1 hh)
  · rw [hdc] at hds
    cases pc
    case setFlag =>
      rcases hmem with hm | ⟨hh, hm⟩
      · exact absurd hm hds.1.1
      · exact absurd hm (hds.2.1 hh)
    case decBase =>
      rcases hmem with hm | ⟨hh, hm⟩
      · exact absurd hm hds.1.1
      · exact absurd hm (hds.2.1 hh)
    case waitDrain =>
      rcases hmem with hm | ⟨hh, hm⟩
      · exact absurd hm hds.1.1
      · exact absurd hm (hds.2.1 hh)
    case remove => exact hds.1
    case release => exact hds.1
    case doneDel => exact hds.1

/-- Once the drain wait has returned, the deletion flag is set. -/
theorem drained_deleting {c : Config} (hI : SbddInv c) (hdr : c.drained = true) :
    c.dev.deleting = true := by
  have hds := hI.delEvs
  unfold delShape at hds
  have hf := hI.delFlag
  rcases hdc : c.del with - | pc
  · rw [hdc] at hds
    rw [hds.2.2] at hdr
    cases hdr
  · rw [hdc] at hds
    rw [hdc] at hf
    cases pc
    case setFlag => rw [hds.2.2] at hdr; cases hdr
    case decBase => rw [hds.2.2] at hdr; cases hdr
    case waitDrain => rw [hds.2.2] at hdr; cases hdr
    all_goals rw [hf]
    all_goals rfl

/-- Once the drain wait has returned, the counter is (and stays) zero. -/
theorem drained_refs_zero {c : Config} (hI : SbddInv c) (hdr : c.drained = true) :
    c.dev.refs_cnt = 0 := by
  obtain ⟨b0, s0, p0, e0⟩ := hI.drainP hdr
  have hq := hI.refsEq
  rw [b0, s0, p0, e0] at hq
  simpa using hq

/-- C5: resources are released in a fixed order and never early.  From
any created device (so a disk object exists), in every reachable
configuration: a `del_gendisk` event implies that the drain wait has
returned, the counter is zero and the deletion flag is set, the disk is
no longer registered with the host; and a `bdev_release` event implies
the same and moreover occurs strictly after a `del_gendisk` event in the
trace. -/
theorem sbdd_C5_release_order (c0 c : Config) (as : List Act) (d : Disk)
    (h0 : InitOk c0) (hgd : c0.dev.gd = some d) (h : run c0 as = some c) :
    (Event.delGendisk ∈ c.events →
      c.drained = true ∧ c.dev.refs_cnt = 0 ∧ c.dev.deleting = true) ∧
    (∀ hh, Event.bdevRelease hh ∈ c.events →
      c.drained = true ∧ c.dev.refs_cnt = 0 ∧ c.dev.deleting = true ∧
      c.dev.registered = false ∧
      ∃ (i : Nat) (j2 : Nat), i < j2 ∧ c.events[i]? = some Event.delGendisk ∧
        c.events[j2]? = some (Event.bdevRelease hh)) := by
  have hI := inv_run (inv_init h0) h
  have hgd2 : c.dev.gd = some d := by rw [(run_basic h).1, hgd]
  constructor
  · intro hm
    have hdr := delEvs_drained hI (Or.inl hm)
    exact ⟨hdr, drained_refs_zero hI hdr, drained_deleting hI hdr⟩
  · intro hh hm
    have hdr := delEvs_drained hI (Or.inr ⟨hh, hm⟩)
    refine ⟨hdr, drained_refs_zero hI hdr, drained_deleting hI hdr, ?_, ?_⟩
    · -- registration was cleared by `del_gendisk` before the release
      have hds := hI.delEvs
      unfold delShape at hds
      rcases hdc : c.del with - | pc
      · rw [hdc] at hds
        exact absurd hm (hds.2.1 hh)
      · rw [hdc] at hds
        cases pc
        case setFlag => exact absurd hm (hds.2.1 hh)
        case decBase => exact absurd hm (hds.2.1 hh)
        case waitDrain => exact absurd hm (hds.2.1 hh)
        case remove => exact absurd hm (hds.2.2 hh)
        case release => exact absurd hm (hds.2.1 hh)
        case doneDel =>
          exact (hds.2 (by rw [hgd2]; simp)).2.2
    · rcases hI.ordEvs with ho | ho
      · rw [hgd2] at ho; cases ho
      · obtain ⟨j2, hj2⟩ := List.mem_iff_getElem?.mp hm
        obtain ⟨i, hi, hgi⟩ := ho j2 hh hj2
        exact ⟨i, j2, hi, hgi, hj2⟩

/-- C2: once deletion has set the `deleting` flag, a request whose
admission check has not yet run is never admitted in any continuation of
the execution: its clone is never submitted to the backing device, its
thread only ever moves between pre-check program counters and the two
failure exits, and when it has finished (having survived splitting) it
has completed the original bio with an I/O error.  Moreover the
check-then-increment pair acts as one atomic admission decision: as soon
as the counter has reached zero under the deletion flag, it stays zero
forever and the set of submitted clones never grows again. -/
theorem sbdd_C2_no_admission_after_delete (c0 c c' : Config)
    (as bs : List Act) (j : Nat) (t : SubThread)
    (h0 : InitOk c0) (h : run c0 as = some c)
    (hdel : c.dev.deleting = true) (hj : c.subs[j]? = some t)
    (hpre : t.pc = SubPc.atSplit ∨ t.pc = SubPc.atAlloc ∨ t.pc = SubPc.atCheck)
    (h2 : run c bs = some c') :
    Event.submitClone t.id ∉ c'.events ∧
    (∀ t', c'.subs[j]? = some t' → t'.id = t.id ∧ StuckPc t'.pc ∧
      (t.splitSome = true →
        (t'.pc = SubPc.doneNoop ∨ t'.pc = SubPc.doneRejected) →
        t'.pc = SubPc.doneRejected ∧
        Event.completeOrig t.id BLK_STS_IOERR ∈ c'.events)) ∧
    (c.dev.refs_cnt = 0 →
      c'.dev.refs_cnt = 0 ∧
      ∀ r, Event.submitClone r ∈ c'.events → Event.submitClone r ∈ c.events) := by
  have hIc := inv_run (inv_init h0) h
  have hI' := inv_run hIc h2
  have hS : StuckPc t.pc := by
    rcases hpre with hp | hp | hp
    · exact Or.inl hp
    · exact Or.inr (Or.inl hp)
    · exact Or.inr (Or.inr (Or.inl hp))
  obtain ⟨t2, hj2, hid2, hsp2, hok2, hS2⟩ := run_stuck h2 hdel hj hS
  have hshape := hI'.perId t2 (mem_of_getElemQ hj2)
  have hnosub : Event.submitClone t.id ∉ c'.events := by
    intro hmem
    have hin : Event.submitClone t.id ∈ idEvents t2.id c'.events :=
      List.mem_filter.mpr ⟨hmem, by simp [hid2]⟩
    rcases hS2 with hp | hp | hp | hp | hp
    all_goals simp only [subShape, hp] at hshape
    · rw [hshape.1] at hin
      exact absurd hin (List.not_mem_nil _)
    · rw [hshape.2.1] at hin
      exact absurd hin (List.not_mem_nil _)
    · rw [hshape.2.2.1] at hin
      exact absurd hin (List.not_mem_nil _)
    · rw [hshape.2.1] at hin
      exact absurd hin (List.not_mem_nil _)
    · rw [hshape.2.1] at hin
      simp at hin
  refine ⟨hnosub, ?_, ?_⟩
  · intro t' hj'
    rw [hj2] at hj'
    injection hj' with hj'
    subst hj'
    refine ⟨hid2, hS2, fun hsp hdone => ?_⟩
    rcases hdone with hp | hp
    · -- the `doneNoop` exit needs `splitSome = false`, contradiction
      exfalso
      simp only [subShape, hp] at hshape
      rw [hsp2, hsp] at hshape
      exact absurd hshape.1 (by simp)
    · refine ⟨hp, ?_⟩
      simp only [subShape, hp] at hshape
      have hin : Event.completeOrig t2.id BLK_STS_IOERR ∈ idEvents t2.id c'.events := by
        rw [hshape.2.1]
        simp
      have hin2 := (List.mem_filter.mp hin).1
      rw [hid2] at hin2
      exact hin2
  · intro hz
    exact run_drain_perm hIc h2 hdel hz

/-- Whether an event is a completion of request `r`'s original bio. -/
def isCompFor (r : Nat) : Event → Bool
  | .completeOrig r2 _ => r2 == r
  | _ => false

/-- Number of completion signals delivered to request `r`'s original bio. -/
def compCount (r : Nat) (evs : List Event) : Nat := evs.countP (isCompFor r)

/-- Number of counter decrements performed by request `r`'s completion
handler. -/
def decCount (r : Nat) (evs : List Event) : Nat :=
  evs.countP (fun e => e == Event.decRef r)

theorem countP_filter_sub (p q : Event → Bool)
    (hpq : ∀ e, p e = true → q e = true) (evs : List Event) :
    evs.countP p = (evs.filter q).countP p := by
  induction evs with
  | nil => rfl
  | cons e rest ih =>
      rw [List.countP_cons, List.filter_cons]
      by_cases hqe : q e = true
      · rw [if_pos hqe, List.countP_cons, ih]
      · have hpe : p e = false := by
          rcases hpf : p e
          · rfl
          · exact absurd (hpq e hpf) hqe
        rw [if_neg hqe, ih, hpe]
        simp

theorem compCount_eq_idEvents (r : Nat) (evs : List Event) :
    compCount r evs = (idEvents r evs).countP (isCompFor r) :=
  countP_filter_sub _ _ (fun e he => by cases e <;> simpa [isCompFor] using he) evs

theorem decCount_eq_idEvents (r : Nat) (evs : List Event) :
    decCount r evs = (idEvents r evs).countP (fun e => e == Event.decRef r) :=
  countP_filter_sub _ _ (fun e he => by
    cases e
    all_goals simp at he
    all_goals simp [he]) evs

/-- All threads have finished and every submitted clone's completion
handler has run to the end. -/
def Quiescent (c : Config) : Prop :=
  (∀ t ∈ c.subs, t.pc = SubPc.doneNoop ∨ t.pc = SubPc.doneRejected ∨
    t.pc = SubPc.doneSubmitted) ∧
  c.pendingClones = [] ∧
  (∀ e ∈ c.ends, e.pc = EndPc.doneEnd)

/-- C9: for every admitted request (one whose clone was submitted to the
backing device), the original bio never receives more than one
completion signal and the counter is never decremented more than once on
its behalf; and when every completion handler has run (the collaborator
contract that the backing device invokes the callback exactly once per
submitted clone), the original bio has received exactly one completion
signal and exactly one decrement has occurred. -/
theorem sbdd_C9_completion_exactly_once (c0 c : Config) (as : List Act)
    (r : Nat) (h0 : InitOk c0) (h : run c0 as = some c)
    (hadm : Event.submitClone r ∈ c.events) :
    compCount r c.events ≤ 1 ∧ decCount r c.events ≤ 1 ∧
      (Quiescent c → compCount r c.events = 1 ∧ decCount r c.events = 1) := by
  have hI := inv_run (inv_init h0) h
  have hex : ∃ t ∈ c.subs, t.id = r := by
    by_contra hno
    push_neg at hno
    have h1 := (hI.orphans r hno).1
    have hin : Event.submitClone r ∈ idEvents r c.events :=
      List.mem_filter.mpr ⟨hadm, by simp⟩
    rw [h1] at hin
    exact absurd hin (List.not_mem_nil _)
  obtain ⟨t, htmem, htid⟩ := hex
  have hshape := hI.perId t htmem
  rw [htid] at hshape
  have hin : Event.submitClone r ∈ idEvents r c.events :=
    List.mem_filter.mpr ⟨hadm, by simp⟩
  rw [compCount_eq_idEvents, decCount_eq_idEvents]
  cases hpc : t.pc
  all_goals simp only [subShape, hpc] at hshape
  case atSplit =>
    rw [hshape.1] at hin
    exact absurd hin (List.not_mem_nil _)
  case atAlloc =>
    rw [hshape.2.1] at hin
    exact absurd hin (List.not_mem_nil _)
  case atCheck =>
    rw [hshape.2.2.1] at hin
    exact absurd hin (List.not_mem_nil _)
  case atInc =>
    rw [hshape.2.2.1] at hin
    exact absurd hin (List.not_mem_nil _)
  case atSubmit =>
    rw [hshape.2.2.1] at hin
    exact absurd hin (List.not_mem_nil _)
  case doneNoop =>
    rw [hshape.2.1] at hin
    exact absurd hin (List.not_mem_nil _)
  case doneRejected =>
    rw [hshape.2.1] at hin
    simp at hin
  case doneSubmitted =>
    rcases hshape.2.2 with ⟨hp1, hFe, hE⟩ | ⟨hp0, e, hes, hide, hsh⟩
    · rw [hE]
      refine ⟨by simp [isCompFor], by simp, fun hq => ?_⟩
      exfalso
      rw [hq.2.1] at hp1
      simp at hp1
    · have hemem : e ∈ c.ends := (List.mem_filter.mp (by rw [hes]; simp :
        e ∈ endsFor r c.ends)).1
      cases hpe : e.pc
      all_goals simp only [endShape, hpe] at hsh
      case atComplete =>
        rw [hsh]
        refine ⟨by simp [isCompFor], by simp, fun hq => ?_⟩
        exact absurd (hq.2.2 e hemem) (by simp [hpe])
      case atPut =>
        rw [hsh]
        refine ⟨by simp [isCompFor, compEv, htid], by simp [compEv], fun hq => ?_⟩
        exact absurd (hq.2.2 e hemem) (by simp [hpe])
      case atDec =>
        rw [hsh]
        refine ⟨by simp [isCompFor, compEv, htid], by simp [compEv, htid], fun hq => ?_⟩
        exact absurd (hq.2.2 e hemem) (by simp [hpe])
      case doneEnd =>
        rw [hsh]
        exact ⟨by simp [isCompFor, compEv, htid], by simp [compEv, htid],
          fun _ => ⟨by simp [isCompFor, compEv, htid], by simp [compEv, htid]⟩⟩

/-- C10 (implicit frame effect): `bio_put` on a clone happens only on
the completion path — a `bioPut` event implies the clone was submitted —
and when admission is rejected after the clone has already been
allocated (the `deleting` flag observed set at the check, or the
increment refused at zero), the thread fails the original bio and
finishes without ever releasing the clone it allocated: no `bioPut`
event for that request appears in any continuation of the execution. -/
theorem sbdd_C10_rejected_clone_never_put (c0 c : Config) (as : List Act)
    (h0 : InitOk c0) (h : run c0 as = some c) :
    (∀ r, Event.bioPut r ∈ c.events → Event.submitClone r ∈ c.events) ∧
    (∀ (i : Nat) (t : SubThread), c.subs[i]? = some t →
      ((t.pc = SubPc.atCheck ∧ c.dev.deleting = true) ∨
        (t.pc = SubPc.atInc ∧ c.dev.refs_cnt = 0)) →
      ∃ c2, step c (.subStep i) = some c2 ∧
        c2.events = c.events ++ [Event.completeOrig t.id BLK_STS_IOERR] ∧
        ∀ (bs : List Act) (c3 : Config), run c2 bs = some c3 →
          Event.bioPut t.id ∉ c3.events) := by
  have hI := inv_run (inv_init h0) h
  constructor
  · intro r hput
    have hex : ∃ t ∈ c.subs, t.id = r := by
      by_contra hno
      push_neg at hno
      have h1 := (hI.orphans r hno).1
      have hin : Event.bioPut r ∈ idEvents r c.events :=
        List.mem_filter.mpr ⟨hput, by simp⟩
      rw [h1] at hin
      exact absurd hin (List.not_mem_nil _)
    obtain ⟨t, htmem, htid⟩ := hex
    have hshape := hI.perId t htmem
    rw [htid] at hshape
    have hin : Event.bioPut r ∈ idEvents r c.events :=
      List.mem_filter.mpr ⟨hput, by simp⟩
    cases hpc : t.pc
    all_goals simp only [subShape, hpc] at hshape
    case atSplit =>
      rw [hshape.1] at hin
      exact absurd hin (List.not_mem_nil _)
    case atAlloc =>
      rw [hshape.2.1] at hin
      exact absurd hin (List.not_mem_nil _)
    case atCheck =>
      rw [hshape.2.2.1] at hin
      exact absurd hin (List.not_mem_nil _)
    case atInc =>
      rw [hshape.2.2.1] at hin
      exact absurd hin (List.not_mem_nil _)
    case atSubmit =>
      rw [hshape.2.2.1] at hin
      exact absurd hin (List.not_mem_nil _)
    case doneNoop =>
      rw [hshape.2.1] at hin
      exact absurd hin (List.not_mem_nil _)
    case doneRejected =>
      rw [hshape.2.1] at hin
      simp at hin
    case doneSubmitted =>
      have hsubm : Event.submitClone t.id ∈ idEvents r c.events := by
        rcases hshape.2.2 with ⟨-, -, hE⟩ | ⟨-, e, -, -, hsh⟩
        · rw [hE]
          simp
        · cases hpe : e.pc
          all_goals simp only [endShape, hpe] at hsh
          all_goals rw [hsh]
          all_goals simp
      have h2 := (List.mem_filter.mp hsubm).1
      rw [htid] at h2
      exact h2
  · intro i t hget hcase
    have hlen : i < c.subs.length := (List.getElem?_eq_some.mp hget).1
    rcases hcase with ⟨hpc, hcond⟩ | ⟨hpc, hcond⟩
    all_goals obtain ⟨tid, tsp, tok, tpc⟩ := t
    all_goals dsimp only at hpc
    all_goals subst hpc
    · have hs : step c (.subStep i) = some
          { c with
            subs := c.subs.set i ⟨tid, tsp, tok, .doneRejected⟩,
            events := c.events ++ [Event.completeOrig tid BLK_STS_IOERR] } := by
        rw [step, hget]
        dsimp only
        rw [if_pos hcond]
      refine ⟨_, hs, rfl, ?_⟩
      intro bs c3 hr hmem
      have hI2 := inv_step hI hs
      have hj2 : ({ c with
          subs := c.subs.set i ⟨tid, tsp, tok, .doneRejected⟩,
          events := c.events ++ [Event.completeOrig tid BLK_STS_IOERR] } :
            Config).subs[i]? = some ⟨tid, tsp, tok, .doneRejected⟩ := by
        dsimp only
        exact List.getElem?_set_eq_of_lt _ hlen
      have hj3 := run_done_stable hr hj2 (Or.inr (Or.inl rfl))
      have hI3 := inv_run hI2 hr
      have hshape := hI3.perId _ (mem_of_getElemQ hj3)
      simp only [subShape] at hshape
      have hin : Event.bioPut tid ∈
          idEvents (SubThread.mk tid tsp tok SubPc.doneRejected).id c3.events :=
        List.mem_filter.mpr ⟨hmem, by simp⟩
      rw [hshape.2.1] at hin
      simp at hin
    · have hs : step c (.subStep i) = some
          { c with
            subs := c.subs.set i ⟨tid, tsp, tok, .doneRejected⟩,
            events := c.events ++ [Event.completeOrig tid BLK_STS_IOERR] } := by
        rw [step, hget]
        dsimp only
        rw [if_pos hcond]
      refine ⟨_, hs, rfl, ?_⟩
      intro bs c3 hr hmem
      have hI2 := inv_step hI hs
      have hj2 : ({ c with
          subs := c.subs.set i ⟨tid, tsp, tok, .doneRejected⟩,
          events := c.events ++ [Event.completeOrig tid BLK_STS_IOERR] } :
            Config).subs[i]? = some ⟨tid, tsp, tok, .doneRejected⟩ := by
        dsimp only
        exact List.getElem?_set_eq_of_lt _ hlen
      have hj3 := run_done_stable hr hj2 (Or.inr (Or.inl rfl))
      have hI3 := inv_run hI2 hr
      have hshape := hI3.perId _ (mem_of_getElemQ hj3)
      simp only [subShape] at hshape
      have hin : Event.bioPut tid ∈
          idEvents (SubThread.mk tid tsp tok SubPc.doneRejected).id c3.events :=
        List.mem_filter.mpr ⟨hmem, by simp⟩
      rw [hshape.2.1] at hin
      simp at hin

/-! ## Concrete executions exercising the theorems -/

/-- A device record as left by a successful creation over a 2048-sector
backing device, registered with the host. -/
def devW : Sbdd :=
  { deleting := false, refs_cnt := 1, capacity := 2048,
    gd := some ⟨2048⟩, bd_handle := .valid, registered := true }

/-- One inbound request whose split and clone allocation will succeed. -/
def tW : SubThread := { id := 0, splitSome := true, cloneOk := true, pc := .atSplit }

/-- A fresh configuration: the created device, one inbound request, a
delete thread about to start. -/
def cW0 : Config :=
  { dev := devW, subs := [tW], del := some .setFlag,
    pendingClones := [], ends := [], events := [], drained := false }

/-- `cW0` after the delete thread has set the `deleting` flag. -/
def cW1 : Config :=
  { dev := { devW with deleting := true }, subs := [tW], del := some .decBase,
    pendingClones := [], ends := [], events := [], drained := false }

/-- A configuration whose single completion handler is about to complete
the original bio with status 0. -/
def eW : EndThread := { id := 5, status := 0, pc := .atComplete }

def cW4 : Config :=
  { dev := devW, subs := [], del := none,
    pendingClones := [], ends := [eW], events := [], drained := false }

/-- A thread whose `bio_alloc_clone` will fail. -/
def tW7 : SubThread := { id := 3, splitSome := true, cloneOk := false, pc := .atAlloc }

def cW7 : Config :=
  { dev := devW, subs := [tW7], del := none,
    pendingClones := [], ends := [], events := [], drained := false }

/-- An oracle for a fully successful creation over 2048 sectors. -/
def oW6 : CreateOracle :=
  { openRes := .ok, backingCap := 2048, allocRes := .ok, addRet := 0 }

/-- An oracle where `add_disk` fails with `-EBUSY`. -/
def oW8 : CreateOracle :=
  { openRes := .ok, backingCap := 2048, allocRes := .ok, addRet := -16 }

/-- The delete thread runs to completion from `cW0`. -/
def as5W : List Act := [.delStep, .delStep, .delStep, .delStep, .delStep]

def cW5 : Config :=
  { dev := { devW with deleting := true, refs_cnt := 0, registered := false },
    subs := [tW], del := some .doneDel, pendingClones := [], ends := [],
    events := [.delGendisk, .putDisk, .bdevRelease .valid], drained := true }

/-- Request 0 is admitted, submitted, and completes successfully. -/
def as9W : List Act :=
  [.subStep 0, .subStep 0, .subStep 0, .subStep 0, .subStep 0,
   .spawnEndio 0 0, .endStep 0, .endStep 0, .endStep 0]

def cW9 : Config :=
  { dev := devW, subs := [{ tW with pc := .doneSubmitted }], del := some .setFlag,
    pendingClones := [], ends := [{ id := 0, status := 0, pc := .doneEnd }],
    events := [.submitClone 0, .completeOrig 0 0, .bioPut 0, .decRef 0],
    drained := false }

/-- Request 0 reaches its deletion check just after the flag was set. -/
def as10W : List Act := [.subStep 0, .subStep 0, .delStep]

def cW10 : Config :=
  { dev := { devW with deleting := true },
    subs := [{ tW with pc := .atCheck }], del := some .decBase,
    pendingClones := [], ends := [], events := [], drained := false }

theorem sbdd_C1_refs_invariant_witness :
    0 ≤ cW0.dev.refs_cnt ∧
      ∀ (a : Act) (c' : Config), step cW0 a = some c' →
        cW0.dev.refs_cnt < c'.dev.refs_cnt →
        0 < cW0.dev.refs_cnt ∧ c'.dev.refs_cnt = cW0.dev.refs_cnt + 1 :=
  sbdd_C1_refs_invariant cW0 cW0 [] (by unfold InitOk; decide) rfl

theorem sbdd_C2_no_admission_after_delete_witness :
    Event.submitClone tW.id ∉ cW1.events ∧
    (∀ t', cW1.subs[0]? = some t' → t'.id = tW.id ∧ StuckPc t'.pc ∧
      (tW.splitSome = true →
        (t'.pc = SubPc.doneNoop ∨ t'.pc = SubPc.doneRejected) →
        t'.pc = SubPc.doneRejected ∧
        Event.completeOrig tW.id BLK_STS_IOERR ∈ cW1.events)) ∧
    (cW1.dev.refs_cnt = 0 →
      cW1.dev.refs_cnt = 0 ∧
      ∀ r, Event.submitClone r ∈ cW1.events → Event.submitClone r ∈ cW1.events) :=
  sbdd_C2_no_admission_after_delete cW0 cW1 cW1 [.delStep] [] 0 tW
    (by unfold InitOk; decide) rfl rfl rfl (Or.inl rfl) rfl

theorem sbdd_C4_status_passthrough_witness :
    ∃ c', step cW4 (.endStep 0) = some c' ∧
      (eW.status = 0 → c'.events = cW4.events ++ [Event.completeOrig eW.id 0]) ∧
      (eW.status ≠ 0 →
        c'.events = cW4.events ++ [Event.completeOrig eW.id BLK_STS_IOERR] ∧
        BLK_STS_IOERR ≠ 0) :=
  sbdd_C4_status_passthrough cW4 0 eW rfl rfl

theorem sbdd_C5_release_order_witness :
    (Event.delGendisk ∈ cW5.events →
      cW5.drained = true ∧ cW5.dev.refs_cnt = 0 ∧ cW5.dev.deleting = true) ∧
    (∀ hh, Event.bdevRelease hh ∈ cW5.events →
      cW5.drained = true ∧ cW5.dev.refs_cnt = 0 ∧ cW5.dev.deleting = true ∧
      cW5.dev.registered = false ∧
      ∃ (i : Nat) (j2 : Nat), i < j2 ∧ cW5.events[i]? = some Event.delGendisk ∧
        cW5.events[j2]? = some (Event.bdevRelease hh)) :=
  sbdd_C5_release_order cW0 cW5 as5W ⟨2048⟩ (by unfold InitOk; decide) rfl rfl

theorem sbdd_C6_create_initial_state_witness :
    sbdd_create_preadd sbdd0 oW6 = .ok (createdSt oW6.backingCap) ∧
      (createdSt oW6.backingCap).capacity = oW6.backingCap ∧
      (createdSt oW6.backingCap).gd = some ⟨oW6.backingCap⟩ ∧
      (createdSt oW6.backingCap).deleting = false ∧
      (createdSt oW6.backingCap).refs_cnt = 1 ∧
      (createdSt oW6.backingCap).registered = false :=
  sbdd_C6_create_initial_state oW6 rfl rfl

theorem sbdd_C7_alloc_failure_witness :
    ∃ c', step cW7 (.subStep 0) = some c' ∧
      c'.dev = cW7.dev ∧
      c'.events = cW7.events ++ [Event.completeOrig tW7.id BLK_STS_IOERR] ∧
      BLK_STS_IOERR ≠ 0 ∧
      c'.pendingClones = cW7.pendingClones ∧
      c'.ends = cW7.ends ∧
      c'.del = cW7.del ∧
      c'.subs = cW7.subs.set 0 { tW7 with pc := SubPc.doneRejected } :=
  sbdd_C7_alloc_failure cW7 0 tW7 rfl rfl rfl

theorem sbdd_C8_creation_failure_witness :
    (sbdd_init sbdd0 oW8).ret ≠ 0 ∧
      (sbdd_init sbdd0 oW8).deleted = true ∧
      (oW8.openRes = CallRes.ok → oW8.allocRes = CallRes.ok → oW8.addRet ≠ 0 →
        ∃ s', (sbdd_init sbdd0 oW8).finalSt =
          some (s', [Event.delGendisk, Event.putDisk, Event.bdevRelease .valid])) :=
  sbdd_C8_creation_failure oW8 (fun _ he => by cases he) (Or.inr (Or.inr (by decide)))

theorem sbdd_C9_completion_exactly_once_witness :
    compCount 0 cW9.events ≤ 1 ∧ decCount 0 cW9.events ≤ 1 ∧
      (Quiescent cW9 → compCount 0 cW9.events = 1 ∧ decCount 0 cW9.events = 1) :=
  sbdd_C9_completion_exactly_once cW0 cW9 as9W 0 (by unfold InitOk; decide) rfl (by decide)

theorem sbdd_C10_rejected_clone_never_put_witness :
    (∀ r, Event.bioPut r ∈ cW10.events → Event.submitClone r ∈ cW10.events) ∧
    (∀ (i : Nat) (t : SubThread), cW10.subs[i]? = some t →
      ((t.pc = SubPc.atCheck ∧ cW10.dev.deleting = true) ∨
        (t.pc = SubPc.atInc ∧ cW10.dev.refs_cnt = 0)) →
      ∃ c2, step cW10 (.subStep i) = some c2 ∧
        c2.events = cW10.events ++ [Event.completeOrig t.id BLK_STS_IOERR] ∧
        ∀ (bs : List Act) (c3 : Config), run c2 bs = some c3 →
          Event.bioPut t.id ∉ c3.events) :=
  sbdd_C10_rejected_clone_never_put cW0 cW10 as10W (by unfold InitOk; decide) rfl
